import Mathlib

/-!
Verification development for the TDS LLM Deployer repository
(`app/main.py`, `app/worker.py`, `app/llm_generator.py`, `app/github_utils.py`,
`app/settings.py`, `app/models.py`, `app/db.py`).

The Python sources are shallowly embedded as executable Lean definitions.
Strings are modelled as `List Char` so that the regex-like scanners of the
source can be written as structural recursions.  External effects (the LLM
endpoint, HTTP downloads, the GitHub REST API, the wall clock) are modelled
as explicit oracle parameters: the embedded control flow is taken verbatim
from the source, while the world's responses are inputs.
-/

set_option maxRecDepth 100000

namespace Tds

/-- Character strings, modelled as lists of characters. -/
abbrev Str := List Char

/-- Convert a Lean string literal to the `Str` model. -/
def strOf (s : String) : Str := s.toList

/-- The opening brace character. -/
def lbraceC : Char := Char.ofNat 123

/-- The closing brace character. -/
def rbraceC : Char := Char.ofNat 125

/-- The backtick character. -/
def btC : Char := Char.ofNat 96

/-- Boolean "is prefix" on character lists (Python `str.startswith`). -/
def isPre : Str → Str → Bool
  | [], _ => true
  | _ :: _, [] => false
  | p :: ps, c :: cs => p == c && isPre ps cs

/-- Boolean substring test (Python `in` on strings). -/
def substrB (pat : Str) : Str → Bool
  | [] => isPre pat []
  | c :: rest => isPre pat (c :: rest) || substrB pat rest

theorem isPre_refl_append (p r : Str) : isPre p (p ++ r) = true := by
  induction p with
  | nil => simp [isPre]
  | cons c cs ih => simp [isPre, ih]

theorem substrB_of_isPre {pat l : Str} (h : isPre pat l = true) :
    substrB pat l = true := by
  cases l with
  | nil => simpa [substrB] using h
  | cons c rest => simp [substrB, h]

theorem substrB_append_right (pat l r : Str) (h : substrB pat r = true) :
    substrB pat (l ++ r) = true := by
  induction l with
  | nil => exact h
  | cons c cs ih => simp [substrB, ih]

theorem substrB_append_left (pat l r : Str) (h : substrB pat l = true) :
    substrB pat (l ++ r) = true := by
  induction l with
  | nil =>
    simp [substrB] at h
    cases pat with
    | nil => exact substrB_of_isPre (by simp [isPre])
    | cons p ps => simp [isPre] at h
  | cons c cs ih =>
    simp only [substrB, Bool.or_eq_true] at h
    rcases h with h | h
    · -- pat is a prefix of c :: cs, hence of (c :: cs) ++ r
      have : isPre pat ((c :: cs) ++ r) = true := by
        clear ih
        induction pat generalizing c cs with
        | nil => simp [isPre]
        | cons p ps ihp =>
          simp only [isPre, Bool.and_eq_true, beq_iff_eq] at h ⊢
          refine ⟨h.1, ?_⟩
          cases cs with
          | nil =>
            cases ps with
            | nil => simp [isPre]
            | cons q qs => simp [isPre] at h
          | cons d ds => exact ihp d ds h.2
      exact substrB_of_isPre this
    · simp [substrB, ih h]

theorem substrB_middle (pat a b : Str) : substrB pat (a ++ pat ++ b) = true := by
  have h1 : substrB pat (pat ++ b) = true :=
    substrB_of_isPre (isPre_refl_append pat b)
  have := substrB_append_right pat a (pat ++ b) h1
  simpa [List.append_assoc] using this

theorem substrB_self (pat : Str) : substrB pat pat = true := by
  have := substrB_middle pat [] []
  simpa using this

/-- Substring is preserved when the haystack sits inside a larger string. -/
theorem substrB_of_sub (pat a m b : Str) (h : substrB pat m = true) :
    substrB pat (a ++ m ++ b) = true := by
  have h1 : substrB pat (m ++ b) = true := substrB_append_left pat m b h
  have := substrB_append_right pat a (m ++ b) h1
  simpa [List.append_assoc] using this

/-- Python `str.lower` on the model (character-wise). -/
def lowerStr (s : Str) : Str := s.map Char.toLower

/-- Last element of a status trace (the final persisted status). -/
def final_status (trace : List String) : String := trace.getLastD ""

theorem getLastD_concat_any (x : String) (l : List String) :
    ∀ d : String, (l ++ [x]).getLastD d = x := by
  induction l with
  | nil => intro d; simp
  | cons c cs ih =>
    intro d
    rw [List.cons_append, List.getLastD_cons]
    exact ih c

theorem final_status_concat (l : List String) (x : String) :
    final_status (l ++ [x]) = x :=
  getLastD_concat_any x l ""

/-! ## `app/settings.py` and `app/main.py`

Only the fields that the claims touch are modelled (`Settings` has many
more environment-derived fields in the source). -/

/-- Embeds `app/settings.py::Settings` (field relevant to the claims). -/
structure Settings where
  STUDENT_SECRET : String
deriving DecidableEq

/-- Embeds `app/main.py::TaskPayload` (request body of `POST /api/task`). -/
structure TaskPayload where
  email : String
  secret : String
  task : String
  round : Int
  nonce : String
  brief : Option String
  checks : Option (List String)
  evaluation_url : Option String
deriving DecidableEq

/-- Embeds `app/models.py::TaskRecord` (fields set by `receive_task`;
`checks`/`attachments` are JSON-serialised strings in the DB, modelled
here by the structured values they serialise). -/
structure TaskRecord where
  email : String
  task : String
  round : Int
  nonce : String
  brief : String
  checks : List String
  evaluation_url : String
  status : String
  attempts : Nat
deriving DecidableEq

/-- An HTTP error response raised via `HTTPException`. -/
structure HttpError where
  code : Nat
  detail : String
deriving DecidableEq

/-- Embeds `app/main.py::_validate_secret`: an empty configured
`STUDENT_SECRET` is falsy in Python, so the function rejects everything;
otherwise the incoming secret must equal the configured one. -/
def validate_secret (cfg : Settings) (incoming : String) : Bool :=
  if cfg.STUDENT_SECRET = "" then false
  else incoming == cfg.STUDENT_SECRET

/-- Embeds `app/main.py::receive_task`: validate the secret first (403 on
failure, before any DB write), otherwise insert a `TaskRecord` with status
`queued` and acknowledge.  The DB is modelled as the list of rows; the
result pairs the HTTP response with the DB state after the call. -/
def receive_task (cfg : Settings) (p : TaskPayload) (db : List TaskRecord) :
    Except HttpError (String × Nat) × List TaskRecord :=
  if validate_secret cfg p.secret then
    let row : TaskRecord :=
      { email := p.email, task := p.task, round := p.round, nonce := p.nonce
        brief := p.brief.getD "", checks := p.checks.getD []
        evaluation_url := p.evaluation_url.getD ""
        status := "queued", attempts := 0 }
    let db' := db ++ [row]
    (Except.ok ("accepted", db'.length), db')
  else
    (Except.error ⟨403, "Invalid secret"⟩, db)

/-- Claim C10: if the configured STUDENT_SECRET setting is empty, every
POST to /api/task is rejected with HTTP 403 regardless of the supplied
secret, and no task row is created (the endpoint fails closed). -/
theorem c10_empty_secret_fails_closed (cfg : Settings)
    (h : cfg.STUDENT_SECRET = "") (p : TaskPayload) (db : List TaskRecord) :
    (receive_task cfg p db).1 = Except.error ⟨403, "Invalid secret"⟩ ∧
      (receive_task cfg p db).2 = db := by
  simp [receive_task, validate_secret, h]

/-- A sample payload used by concrete witnesses. -/
def samplePayload : TaskPayload :=
  { email := "a@b.c", secret := "whatever", task := "t1", round := 1
    nonce := "n", brief := some "brief", checks := none
    evaluation_url := none }

theorem c10_empty_secret_fails_closed_witness :
    (Settings.mk "").STUDENT_SECRET = "" ∧
      ((receive_task ⟨""⟩ samplePayload []).1 =
          Except.error ⟨403, "Invalid secret"⟩ ∧
        (receive_task ⟨""⟩ samplePayload []).2 = []) :=
  ⟨rfl, c10_empty_secret_fails_closed ⟨""⟩ rfl samplePayload []⟩

/-! ## `app/worker.py::_safe_post` and `_stage_notify_eval`

The HTTP world is an oracle `responses : Nat → Option Nat`: attempt `i`
(1-based as in the source) either yields a status code or raises
(`none`).  The source counts success only on `r.status_code == 200`. -/

/-- Loop of `_safe_post`: remaining attempt budget, current attempt index.
An attempt either yields a status (`some s`, success only when `s = 200`)
or raises (`none`); both non-successes fall through to the next attempt. -/
def safe_post_go (responses : Nat → Option Nat) : Nat → Nat → Bool
  | 0, _ => false
  | k + 1, attempt =>
    match responses attempt with
    | some s => if s = 200 then true else safe_post_go responses k (attempt + 1)
    | none => safe_post_go responses k (attempt + 1)

/-- Embeds `app/worker.py::_safe_post` (retries attempts `1..retries`,
returning `true` on the first attempt whose status code is exactly 200). -/
def safe_post (responses : Nat → Option Nat) (retries : Nat) : Bool :=
  safe_post_go responses retries 1

/-- Embeds the delivery outcome of `app/worker.py::_stage_notify_eval`,
which calls `_safe_post(evaluation_url, payload, retries=5)`. -/
def stage_notify_delivered (responses : Nat → Option Nat) : Bool :=
  safe_post responses 5

theorem safe_post_go_iff (responses : Nat → Option Nat) :
    ∀ (k a : Nat), safe_post_go responses k a = true ↔
      ∃ i, a ≤ i ∧ i < a + k ∧ responses i = some 200 := by
  intro k
  induction k with
  | zero =>
    intro a
    constructor
    · intro h; simp [safe_post_go] at h
    · rintro ⟨i, h1, h2, _⟩; omega
  | succ n ih =>
    intro a
    constructor
    · intro h
      cases hr : responses a with
      | none =>
        simp only [safe_post_go, hr] at h
        obtain ⟨i, hi1, hi2, hi3⟩ := (ih (a + 1)).mp h
        exact ⟨i, by omega, by omega, hi3⟩
      | some s =>
        by_cases hs : s = 200
        · exact ⟨a, le_refl a, by omega, by rw [hr, hs]⟩
        · simp only [safe_post_go, hr, if_neg hs] at h
          obtain ⟨i, hi1, hi2, hi3⟩ := (ih (a + 1)).mp h
          exact ⟨i, by omega, by omega, hi3⟩
    · rintro ⟨i, hi1, hi2, hi3⟩
      by_cases ha : i = a
      · subst ha
        simp [safe_post_go, hi3]
      · have hlt : a + 1 ≤ i := by omega
        have hrec : safe_post_go responses n (a + 1) = true :=
          (ih (a + 1)).mpr ⟨i, hlt, by omega, hi3⟩
        cases hr : responses a with
        | none => simpa [safe_post_go, hr] using hrec
        | some s =>
          by_cases hs : s = 200
          · simp [safe_post_go, hr, hs]
          · simpa [safe_post_go, hr, if_neg hs] using hrec

/-- Claim C4 (amended): the evaluator notification counts as delivered
iff one of the 5 POST attempts returns HTTP status exactly 200; any other
status — including other 2xx codes — counts as failure. -/
theorem c4_notify_success_iff_status_200 (responses : Nat → Option Nat) :
    stage_notify_delivered responses = true ↔
      ∃ i, 1 ≤ i ∧ i ≤ 5 ∧ responses i = some 200 := by
  unfold stage_notify_delivered safe_post
  rw [safe_post_go_iff]
  constructor
  · rintro ⟨i, h1, h2, h3⟩; exact ⟨i, h1, by omega, h3⟩
  · rintro ⟨i, h1, h2, h3⟩; exact ⟨i, h1, by omega, h3⟩

/-- Claim C4 counterexample: a POST that always returns HTTP 204 — a 2xx
status — is counted as a delivery failure, refuting "success = any 2xx". -/
theorem c4_counterexample_204_is_failure :
    stage_notify_delivered (fun _ => some 204) = false ∧
      (200 ≤ 204 ∧ 204 ≤ 299) := by
  constructor
  · rfl
  · exact ⟨by omega, by omega⟩

/-! ## Worker data model (`app/worker.py`)

`generated['app_code']` is either a single string (pushed as
`index.html`) or a mapping of file names to text or raw bytes.  Raw
bytes are modelled as `Str` too; byte-level encoding/decoding
(`bytes.decode('utf-8'/'latin-1')`) is collapsed to the identity, which
is the only point where byte semantics are abstracted. -/

/-- A file value inside `app_code`: text (`str`) or binary (`bytes`). -/
inductive Content where
  | text (s : Str)
  | bin (b : Str)
deriving DecidableEq

/-- `generated['app_code']` — a monolithic string or a file mapping. -/
inductive AppCode where
  | mono (s : Str)
  | files (entries : List (Str × Content))
deriving DecidableEq

/-- The `generated` payload threaded through the worker stages
(`app_code`, optional `readme`, optional `license`). -/
structure Payload where
  app_code : AppCode
  readme : Option Str
  license : Option Str
deriving DecidableEq

/-- One entry of the LLM manifest (`app/llm_generator.py::FileEntry`). -/
structure ManifestFile where
  path : Str
  content : Str
  encoding : Str
deriving DecidableEq

/-- The LLM manifest (`app/llm_generator.py::ManifestSchema`). -/
structure Manifest where
  files : List ManifestFile
deriving DecidableEq

/-- An attachment descriptor from the task payload. -/
structure Attachment where
  name : Option Str
  filename : Option Str
  url : Option Str
deriving DecidableEq

/-- The task object loaded by `process_task` (dict-like in the source). -/
structure TaskObj where
  id : Nat
  email : Str
  task : Str
  round : Int
  nonce : Str
  brief : Str
  checks : List Str
  evaluation_url : Str
  attachments : List Attachment
deriving DecidableEq

/-! ## Basic Structural Checker (modelled from the spec)

`app/worker.py` imports `generate_app_from_brief` and
`_validate_json_schema` from `app/llm_generator.py`, but neither is
present under `src/`; the structural-check stage described in the spec
(§4.7) also has no source under `src/`.  The checker below is modelled
from the spec so the claim can be stated; the worker control flow is
embedded from the source, where `_stage_generate(brief)` and
`process_task` hand the missing code only the brief (worker.py:118,311)
and never read the task checks. -/

/-- Suffix of `l` after the first occurrence of `pat`, if any. -/
def afterSub (pat : Str) : Str → Option Str
  | [] => none
  | c :: rest =>
    if isPre pat (c :: rest) then some ((c :: rest).drop pat.length)
    else afterSub pat rest

/-- The single-quote character. -/
def sqC : Char := Char.ofNat 39

/-- Parse a quoted token `'tok'` or `"tok"` at the head of `s`. -/
def parseQuoted (s : Str) : Option Str :=
  match s with
  | [] => none
  | q :: rest =>
    if q == sqC || q == '"' then
      match rest.dropWhile (fun c => !(c == q)) with
      | _ :: _ => some (rest.takeWhile (fun c => !(c == q)))
      | [] => none
    else none

/-- Modelled from the spec (§4.7, Basic Structural Checker, absent from
`src/`): extract a single CSS-style selector from a check of the form
`querySelector('X')`, `querySelectorAll('X')` or `getElementById('X')`
(mapped to `#X`); other checks yield `none` (skipped). -/
def extract_check_selector (check : Str) : Option Str :=
  match afterSub (strOf "getElementById(") check with
  | some r => (parseQuoted r).map (fun t => '#' :: t)
  | none =>
    match afterSub (strOf "querySelectorAll(") check with
    | some r => parseQuoted r
    | none =>
      match afterSub (strOf "querySelector(") check with
      | some r => parseQuoted r
      | none => none

/-- Boolean "is suffix" on character lists (Python `str.endswith`). -/
def isSuf (pat l : Str) : Bool := isPre pat.reverse l.reverse

/-- A manifest path counts as an HTML file when it ends in `.html`. -/
def isHtmlPath (path : Str) : Bool := isSuf (strOf ".html") (lowerStr path)

/-- Modelled from the spec (§4.7): a selector is found when some HTML
file of the manifest contains it (raw substring fallback). -/
def selector_found_in_files (files : List ManifestFile) (sel : Str) : Bool :=
  files.any (fun f => isHtmlPath f.path && substrB sel f.content)

/-- Modelled from the spec (§4.7): the manifest passes when every
extractable selector is found in at least one HTML file. -/
def manifest_passes_checks (files : List ManifestFile) (checks : List Str) :
    Bool :=
  checks.all (fun c =>
    match extract_check_selector c with
    | none => true
    | some sel => selector_found_in_files files sel)

/-- Convert a validated manifest into the worker payload shape. -/
def payload_of_manifest (m : Manifest) : Payload :=
  ⟨AppCode.files (m.files.map (fun f => (f.path, Content.text f.content))),
    none, none⟩

/-- Modelled from the spec: `generate_app_from_brief` (imported by
`app/worker.py` line 30 but absent from `src/`).  Per §4.4 it produces a
manifest from the model output (given here as the oracle outcome
`llmManifest`, `none` = model/parse failure).  The worker hands it only
the task brief (worker.py:118), so no check information reaches it and
the Basic Structural Checker of §4.7 cannot run inside it. -/
def generate_app_from_brief (llmManifest : Option Manifest) :
    Except String Payload :=
  match llmManifest with
  | none => Except.error "LLM did not return a valid JSON manifest"
  | some m => Except.ok (payload_of_manifest m)

/-- Modelled from the spec (§4.5): `_validate_json_schema` (imported by
`app/worker.py` line 30 but absent from `src/`): the generated payload
must carry a non-empty file set. -/
def validate_json_schema (p : Payload) : Bool :=
  match p.app_code with
  | AppCode.mono s => !s.isEmpty
  | AppCode.files l => !l.isEmpty

/-- Embeds `app/worker.py::_stage_generate` (lines 113-128): up to
`max_attempts` calls of `generate_app_from_brief` on the brief alone
(one oracle outcome per attempt), requiring schema validation; the last
error is raised when all attempts fail. -/
def stage_generate : List (Option Manifest) → Except String Payload
  | [] => Except.error "LLM generation stage failed"
  | a :: rest =>
    match generate_app_from_brief a with
    | Except.ok p =>
      if validate_json_schema p then Except.ok p
      else
        match rest with
        | [] => Except.error "Generated payload failed schema validation"
        | _ :: _ => stage_generate rest
    | Except.error e =>
      match rest with
      | [] => Except.error e
      | _ :: _ => stage_generate rest

theorem stage_generate_ok_source (attempts : List (Option Manifest))
    (p : Payload) (h : stage_generate attempts = Except.ok p) :
    ∃ m : Manifest, some m ∈ attempts ∧ p = payload_of_manifest m := by
  induction attempts with
  | nil => simp [stage_generate] at h
  | cons a rest ih =>
    cases a with
    | none =>
      simp only [stage_generate, generate_app_from_brief] at h
      cases rest with
      | nil => simp at h
      | cons b bs =>
        obtain ⟨m, hm, he⟩ := ih h
        exact ⟨m, by simp [hm], he⟩
    | some m =>
      simp only [stage_generate, generate_app_from_brief] at h
      by_cases hv : validate_json_schema (payload_of_manifest m) = true
      · simp only [hv, if_true] at h
        exact ⟨m, by simp, by injection h with h'; exact h'.symm⟩
      · simp only [Bool.not_eq_true] at hv
        simp only [hv, Bool.false_eq_true, if_false] at h
        cases rest with
        | nil => simp at h
        | cons b bs =>
          obtain ⟨m', hm', he'⟩ := ih h
          exact ⟨m', by simp [hm'], he'⟩

theorem manifest_passes_finds (files : List ManifestFile)
    (checks : List Str) (check sel : Str)
    (hall : manifest_passes_checks files checks = true)
    (hmem : check ∈ checks)
    (hsel : extract_check_selector check = some sel) :
    selector_found_in_files files sel = true := by
  have := List.all_eq_true.mp hall check hmem
  simpa [hsel] using this

/-! ## Attachment handling (`app/worker.py`) -/

/-- Python whitespace characters stripped by `str.strip`. -/
def isPyWs (c : Char) : Bool :=
  c == ' ' || c == '\t' || c == '\n' || c == '\r' ||
    c == Char.ofNat 11 || c == Char.ofNat 12

/-- Value of a base64 alphabet character. -/
def b64Val (c : Char) : Option Nat :=
  let n := c.toNat
  if 65 ≤ n ∧ n ≤ 90 then some (n - 65)
  else if 97 ≤ n ∧ n ≤ 122 then some (n - 71)
  else if 48 ≤ n ∧ n ≤ 57 then some (n + 4)
  else if c == '+' then some 62
  else if c == '/' then some 63
  else none

/-- Decode one base64 quad into 1–3 bytes (modelled as characters). -/
def b64Quad (a b c d : Char) : Option Str :=
  match b64Val a, b64Val b with
  | some va, some vb =>
    if c == '=' then
      if d == '=' then some [Char.ofNat ((va * 4 + vb / 16) % 256)] else none
    else
      match b64Val c with
      | some vc =>
        if d == '=' then
          some [Char.ofNat ((va * 4 + vb / 16) % 256),
                Char.ofNat ((vb % 16 * 16 + vc / 4) % 256)]
        else
          match b64Val d with
          | some vd =>
            some [Char.ofNat ((va * 4 + vb / 16) % 256),
                  Char.ofNat ((vb % 16 * 16 + vc / 4) % 256),
                  Char.ofNat ((vc % 4 * 64 + vd) % 256)]
          | none => none
      | none => none
  | _, _ => none

/-- Model of `base64.b64decode` (default mode: non-alphabet characters
are discarded before decoding; padding must close the final quad). -/
def b64DecodeGo : Str → Option Str
  | [] => some []
  | a :: b :: c :: d :: rest =>
    match b64Quad a b c d with
    | none => none
    | some bytes =>
      match rest with
      | [] => some bytes
      | _ :: _ =>
        if c == '=' || d == '=' then none
        else (b64DecodeGo rest).map (fun t => bytes ++ t)
  | _ => none

/-- Model of `base64.b64decode` applied to a character string. -/
def b64decode (s : Str) : Option Str :=
  b64DecodeGo (s.filter (fun c => (b64Val c).isSome || c == '='))

/-- Embeds the `data:` branch of `app/worker.py::_download_with_retries`
(split at the first comma; base64-decode when the header ends in
`;base64`; media type is `header[5:]` up to the first `;`). -/
def data_uri_download (url : Str) : Option (Str × Option Str) :=
  let header := url.takeWhile (fun c => !(c == ','))
  match url.dropWhile (fun c => !(c == ',')) with
  | [] => none
  | _ :: b64 =>
    let ctype := (header.drop 5).takeWhile (fun c => !(c == ';'))
    let content? := if isSuf (strOf ";base64") header then b64decode b64
                    else some b64
    match content? with
    | none => none
    | some content => some (content, if ctype = [] then none else some ctype)

/-- HTTP attempt loop of `_download_with_retries`: `http i` is attempt
`i` (1-based) — `some (body, contentType?)` for a non-raising 2xx GET,
`none` for an exception (connection error or `raise_for_status`). -/
def download_http_loop (http : Nat → Option (Str × Option Str)) :
    Nat → Nat → Option (Str × Option Str)
  | 0, _ => none
  | k + 1, i =>
    match http i with
    | some r => some r
    | none => download_http_loop http k (i + 1)

/-- Embeds `app/worker.py::_download_with_retries`. -/
def download_with_retries (http : Nat → Option (Str × Option Str))
    (url : Str) (attempts : Nat) : Option (Str × Option Str) :=
  if isPre (strOf "data:") url then data_uri_download url
  else download_http_loop http attempts 1

/-- `att.get('name') or att.get('filename')` followed by the falsy test
`if not name`: the resolved, non-empty attachment name (if any). -/
def attachment_key (att : Attachment) : Option Str :=
  match att.name with
  | some n =>
    if n = [] then
      match att.filename with
      | some f => if f = [] then none else some f
      | none => none
    else some n
  | none =>
    match att.filename with
    | some f => if f = [] then none else some f
    | none => none

/-- Insertion-order-preserving dict update `app_code[name] = value`. -/
def app_code_set : List (Str × Content) → Str → Content → List (Str × Content)
  | [], k, v => [(k, v)]
  | (k', v') :: rest, k, v =>
    if k' = k then (k, v) :: rest else (k', v') :: app_code_set rest k v

/-- Dict lookup on the `app_code` mapping. -/
def app_code_get : List (Str × Content) → Str → Option Content
  | [], _ => none
  | (k', v') :: rest, k => if k' = k then some v' else app_code_get rest k

/-- Content-type based text classification of `_process_attachments`. -/
def content_type_is_text (ctype : Str) : Bool :=
  let low := lowerStr (ctype.takeWhile (fun c => !(c == ';')))
  isPre (strOf "text/") low || low = strOf "application/json" ||
    low = strOf "application/javascript"

/-- Split off the last-dot suffix of a name, if any. -/
def lastDotSplit : Str → Option (Str × Str)
  | [] => none
  | c :: rest =>
    match lastDotSplit rest with
    | some (b, e) => some (c :: b, e)
    | none => if c == '.' then some ([], c :: rest) else none

/-- Model of `os.path.splitext(name)[1]` (no directory separators in
attachment names; leading dots do not start an extension). -/
def splitext_ext (name : Str) : Str :=
  match lastDotSplit name with
  | some (before, ext) => if before.all (fun c => c == '.') then [] else ext
  | none => []

/-- Extension allow-list fallback of `_process_attachments`. -/
def ext_is_text (ext : Str) : Bool :=
  let e := lowerStr ext
  e = strOf ".txt" || e = strOf ".md" || e = strOf ".html" ||
    e = strOf ".csv" || e = strOf ".json" || e = strOf ".js"

/-- The placeholder text written when an attachment download fails. -/
def attachment_placeholder (name : Str) : Str :=
  strOf "Attachment " ++ name ++ strOf " could not be downloaded."

/-- Embeds the per-attachment body of
`app/worker.py::_process_attachments` (malformed descriptors are
skipped; a failed download stores a placeholder text file; otherwise the
content is stored as text or bytes according to the classification). -/
def process_one_attachment (http : Str → Nat → Option (Str × Option Str))
    (entries : List (Str × Content)) (att : Attachment) :
    List (Str × Content) :=
  match attachment_key att with
  | none => entries
  | some name =>
    match att.url with
    | none => entries
    | some url =>
      if url = [] then entries
      else
        match download_with_retries (http url) url 3 with
        | none =>
          app_code_set entries name
            (Content.text (attachment_placeholder name))
        | some (content, ctype?) =>
          let is_text :=
            (match ctype? with
             | some ct => content_type_is_text ct
             | none => false) || ext_is_text (splitext_ext name)
          if is_text then app_code_set entries name (Content.text content)
          else app_code_set entries name (Content.bin content)

/-- Embeds `app/worker.py::_process_attachments`. -/
def process_attachments (atts : List Attachment)
    (http : Str → Nat → Option (Str × Option Str)) (p : Payload) : Payload :=
  if atts.isEmpty then p
  else
    let entries0 :=
      match p.app_code with
      | AppCode.files l => l
      | AppCode.mono s => [(strOf "index.html", Content.text s)]
    ⟨AppCode.files (atts.foldl (process_one_attachment http) entries0),
      p.readme, p.license⟩

/-! ## Repo-push and notify stages, `process_task` (`app/worker.py`) -/

/-- The truthiness check of `_stage_repo_push` on the returned triple. -/
def push_result_complete (t : Str × Str × Str) : Bool :=
  !t.1.isEmpty && !t.2.1.isEmpty && !t.2.2.isEmpty

/-- Attempt loop of `_stage_repo_push` (4 attempts; incomplete results
count as failures; last error propagates). -/
def stage_repo_push_go (pushA : Nat → Except String (Str × Str × Str)) :
    Nat → Nat → Except String (Str × Str × Str)
  | 0, _ => Except.error "Repo push stage failed"
  | k + 1, i =>
    match pushA i with
    | Except.ok t =>
      if push_result_complete t then Except.ok t
      else
        match k with
        | 0 => Except.error "github_utils returned incomplete values"
        | _ + 1 => stage_repo_push_go pushA k (i + 1)
    | Except.error e =>
      match k with
      | 0 => Except.error e
      | _ + 1 => stage_repo_push_go pushA k (i + 1)

/-- Embeds `app/worker.py::_stage_repo_push`. -/
def stage_repo_push (pushA : Nat → Except String (Str × Str × Str)) :
    Except String (Str × Str × Str) :=
  stage_repo_push_go pushA 4 1

/-- Embeds `app/worker.py::process_task` as the sequence of statuses
persisted via `_update_db_status` (the trace of DB status writes, in
order).  External outcomes are oracles: `attempts` are the per-attempt
LLM manifests, `http` the attachment downloads, `pushA` the per-attempt
GitHub results (given the attachment-merged payload), `notifyResp` the
per-attempt callback statuses.  Any stage exception is caught and
persists `failed`. -/
def process_task (task : TaskObj) (attempts : List (Option Manifest))
    (http : Str → Nat → Option (Str × Option Str))
    (pushA : Payload → Nat → Except String (Str × Str × Str))
    (notifyResp : Nat → Option Nat) : List String :=
  let t0 := ["processing"]
  if task.brief = [] then t0 ++ ["failed"]
  else
    match stage_generate attempts with
    | Except.error _ => t0 ++ ["failed"]
    | Except.ok p =>
      let t1 := t0 ++ ["generated"]
      let p2 := process_attachments task.attachments http p
      match stage_repo_push (pushA p2) with
      | Except.error _ => t1 ++ ["failed"]
      | Except.ok _ =>
        let t2 := t1 ++ ["pushed"]
        if task.evaluation_url = [] then t2 ++ ["done"]
        else if stage_notify_delivered notifyResp then
          t2 ++ ["notified", "done"]
        else t2 ++ ["notify_failed", "done"]

/-! ## Concrete inputs for worker-level runs -/

/-- A one-file manifest whose `index.html` contains `#title`. -/
def cxManifest : Manifest :=
  ⟨[⟨strOf "index.html",
     strOf "<style>#title \x7b color: red; \x7d</style><h1 id=\"title\">Hi</h1>",
     strOf "utf-8"⟩]⟩

/-- A push oracle that always succeeds with a complete triple. -/
def okPush : Payload → Nat → Except String (Str × Str × Str) :=
  fun _ _ => Except.ok
    (strOf "https://github.com/o/r", strOf "abc123sha",
      strOf "https://o.github.io/r/")

/-- The triple returned by `okPush`. -/
def okTriple : Str × Str × Str :=
  (strOf "https://github.com/o/r", strOf "abc123sha",
    strOf "https://o.github.io/r/")

/-- A notify oracle that always returns HTTP 500. -/
def failNotify : Nat → Option Nat := fun _ => some 500

/-- A notify oracle that always returns HTTP 200. -/
def okNotify : Nat → Option Nat := fun _ => some 200

/-- An attachment-download oracle where every GET raises. -/
def noHttp : Str → Nat → Option (Str × Option Str) := fun _ _ => none

/-- Concrete task for the C3 run: no checks, callback URL set. -/
def c3Task : TaskObj :=
  ⟨1, strOf "a@b.c", strOf "demo-task", 1, strOf "nonce1",
    strOf "Make a page", [], strOf "https://eval.example/cb", []⟩

/-- The payload generated from `cxManifest`. -/
def c3Payload : Payload := payload_of_manifest cxManifest

/-- Claim C3 counterexample: a task whose generation and publish succeed
and whose evaluator notification fails on every attempt ends with final
persisted status `done`, not `done_notify_failed` as the claim states. -/
theorem c3_counterexample_final_is_done :
    final_status (process_task c3Task [some cxManifest] noHttp okPush
        failNotify) = "done" ∧
      final_status (process_task c3Task [some cxManifest] noHttp okPush
        failNotify) ≠ "done_notify_failed" := by
  have h : final_status (process_task c3Task [some cxManifest] noHttp okPush
      failNotify) = "done" := by rfl
  exact ⟨h, by rw [h]; decide⟩

/-- Claim C3 (amended): when generation and publish succeed but the
evaluator notification fails after all retry attempts, the worker records
the transient status `notify_failed` and then persists the final status
`done`; `done_notify_failed` is never written. -/
theorem c3_notify_failure_persists_done (task : TaskObj)
    (attempts : List (Option Manifest))
    (http : Str → Nat → Option (Str × Option Str))
    (pushA : Payload → Nat → Except String (Str × Str × Str))
    (notifyResp : Nat → Option Nat) (p : Payload) (t : Str × Str × Str)
    (hbrief : task.brief ≠ [])
    (hgen : stage_generate attempts = Except.ok p)
    (hurl : task.evaluation_url ≠ [])
    (hpush : stage_repo_push
        (pushA (process_attachments task.attachments http p)) =
      Except.ok t)
    (hnot : stage_notify_delivered notifyResp = false) :
    process_task task attempts http pushA notifyResp =
        ["processing", "generated", "pushed", "notify_failed", "done"] ∧
      final_status (process_task task attempts http pushA notifyResp) =
        "done" := by
  have htr : process_task task attempts http pushA notifyResp =
      ["processing", "generated", "pushed", "notify_failed", "done"] := by
    simp [process_task, hbrief, hgen, hpush, hurl, hnot]
  exact ⟨htr, by rw [htr]; rfl⟩

theorem c3_notify_failure_persists_done_witness :
    (c3Task.brief ≠ [] ∧
      stage_generate [some cxManifest] = Except.ok c3Payload ∧
      c3Task.evaluation_url ≠ [] ∧
      stage_repo_push
          (okPush (process_attachments c3Task.attachments noHttp c3Payload)) =
        Except.ok okTriple ∧
      stage_notify_delivered failNotify = false) ∧
    (process_task c3Task [some cxManifest] noHttp okPush failNotify =
        ["processing", "generated", "pushed", "notify_failed", "done"] ∧
      final_status (process_task c3Task [some cxManifest] noHttp okPush
        failNotify) = "done") :=
  ⟨⟨by decide, rfl, by decide, rfl, rfl⟩,
    c3_notify_failure_persists_done c3Task [some cxManifest] noHttp okPush
      failNotify c3Payload okTriple (by decide) rfl (by decide) rfl rfl⟩

/-- The check string used by the C1 failing run. -/
def c1Check : Str := strOf "document.getElementById(\x27title\x27)"

/-- Concrete task for the C1 failing run. -/
def c1Task : TaskObj :=
  ⟨2, strOf "a@b.c", strOf "demo2", 1, strOf "n2",
    strOf "Make a hello page", [c1Check],
    strOf "https://eval.example/cb", []⟩

/-- A one-file manifest whose `index.html` does not contain `#title`. -/
def c1BadManifest : Manifest :=
  ⟨[⟨strOf "index.html", strOf "<h1>Hello</h1>", strOf "utf-8"⟩]⟩

/-- Claim C1 fails on the code: `process_task` reads only the brief
(worker.py:304,311) and `_stage_generate(brief)` forwards nothing but
the brief (worker.py:113-118), so the task checks never reach any code
able to run the Basic Structural Checker, and `done` is persisted
unconditionally after a successful push (worker.py:342).  Concretely: a
task whose checks contain `getElementById('title')` (selector `#title`)
whose generated manifest lacks `#title` in every HTML file is still
persisted `done`, where the claim demands the selector be found or the
task end `failed`. -/
theorem c1_selector_absent_yet_done :
    (c1Check ∈ c1Task.checks ∧
      extract_check_selector c1Check = some (strOf "#title")) ∧
    manifest_passes_checks c1BadManifest.files c1Task.checks = false ∧
    selector_found_in_files c1BadManifest.files (strOf "#title") = false ∧
    final_status (process_task c1Task [some c1BadManifest] noHttp okPush
      okNotify) = "done" :=
  ⟨⟨by decide, by decide⟩, by decide, by decide, by rfl⟩

/-! ## Attachment-placeholder lemmas (claim C7) -/

theorem app_code_set_get_eq (l : List (Str × Content)) (k : Str)
    (v : Content) : app_code_get (app_code_set l k v) k = some v := by
  induction l with
  | nil => simp [app_code_set, app_code_get]
  | cons hd tl ih =>
    obtain ⟨k', v'⟩ := hd
    by_cases hk : k' = k
    · simp [app_code_set, hk, app_code_get]
    · simp [app_code_set, hk, app_code_get, ih]

theorem process_one_attachment_get_ne
    (http : Str → Nat → Option (Str × Option Str))
    (entries : List (Str × Content)) (att : Attachment) (n : Str)
    (h : attachment_key att ≠ some n) :
    app_code_get (process_one_attachment http entries att) n =
      app_code_get entries n := by
  have hset : ∀ (k : Str) (v : Content), attachment_key att = some k →
      app_code_get (app_code_set entries k v) n = app_code_get entries n := by
    intro k v hk
    have hkn : k ≠ n := by
      intro e; exact h (e ▸ hk)
    clear h hk
    induction entries with
    | nil => simp [app_code_set, app_code_get, hkn]
    | cons hd tl ih =>
      obtain ⟨k', v'⟩ := hd
      by_cases hk' : k' = k
      · subst hk'
        simp [app_code_set, app_code_get, hkn]
      · simp [app_code_set, hk', app_code_get, ih]
  unfold process_one_attachment
  cases hk : attachment_key att with
  | none => rfl
  | some k =>
    cases att.url with
    | none => rfl
    | some url =>
      by_cases hu : url = []
      · simp [hu]
      · simp only [if_neg hu]
        cases download_with_retries (http url) url 3 with
        | none => exact hset k _ hk
        | some r =>
          obtain ⟨content, ctype?⟩ := r
          simp only []
          split
          · exact hset k _ hk
          · exact hset k _ hk

theorem foldl_preserve_get (http : Str → Nat → Option (Str × Option Str))
    (n : Str) :
    ∀ (l : List Attachment), (∀ a ∈ l, attachment_key a ≠ some n) →
      ∀ entries,
        app_code_get (l.foldl (process_one_attachment http) entries) n =
          app_code_get entries n := by
  intro l
  induction l with
  | nil => intro _ entries; rfl
  | cons a rest ih =>
    intro h entries
    rw [List.foldl_cons]
    rw [ih (fun a' ha' => h a' (List.mem_cons_of_mem a ha'))]
    exact process_one_attachment_get_ne http entries a n
      (h a (List.mem_cons_self a rest))

theorem process_one_attachment_fail_sets_placeholder
    (http : Str → Nat → Option (Str × Option Str))
    (entries : List (Str × Content)) (att : Attachment) (n url : Str)
    (hk : attachment_key att = some n) (hu : att.url = some url)
    (hne : url ≠ []) (hnd : isPre (strOf "data:") url = false)
    (hf : ∀ i, http url i = none) :
    process_one_attachment http entries att =
      app_code_set entries n (Content.text (attachment_placeholder n)) := by
  have hdl : download_with_retries (http url) url 3 = none := by
    unfold download_with_retries
    rw [hnd]
    simp [download_http_loop, hf]
  unfold process_one_attachment
  rw [hk, hu]
  simp only [hdl, if_neg hne]

theorem c7_placeholder_after_fold
    (http : Str → Nat → Option (Str × Option Str)) (att : Attachment)
    (n url : Str)
    (hk : attachment_key att = some n) (hu : att.url = some url)
    (hne : url ≠ []) (hnd : isPre (strOf "data:") url = false)
    (hf : ∀ i, http url i = none) :
    ∀ (l : List Attachment), att ∈ l →
      (∀ a ∈ l, attachment_key a = some n → a = att) →
      ∀ entries,
        app_code_get (l.foldl (process_one_attachment http) entries) n =
          some (Content.text (attachment_placeholder n)) := by
  intro l
  induction l with
  | nil => intro hmem; cases hmem
  | cons a rest ih =>
    intro hmem huniq entries
    rw [List.foldl_cons]
    by_cases ha : a = att
    · subst ha
      rw [process_one_attachment_fail_sets_placeholder http entries a n url
        hk hu hne hnd hf]
      by_cases hmem' : a ∈ rest
      · exact ih hmem'
          (fun a' ha' h' => huniq a' (List.mem_cons_of_mem a ha') h') _
      · have hpres : ∀ a' ∈ rest, attachment_key a' ≠ some n := by
          intro a' ha' h'
          have : a' = a := huniq a' (List.mem_cons_of_mem a ha') h'
          exact hmem' (this ▸ ha')
        rw [foldl_preserve_get http n rest hpres _]
        exact app_code_set_get_eq entries n _
    · have hmem2 : att ∈ rest := by
        rcases List.mem_cons.mp hmem with h | h
        · exact absurd h.symm ha
        · exact h
      exact ih hmem2
        (fun a' ha' h' => huniq a' (List.mem_cons_of_mem a ha') h') _

/-- Claim C7: an attachment whose HTTP URL fails on every download attempt
yields a placeholder text file keyed by the attachment's name in the merged
file set, and the failed attachment never causes the task to be marked
failed — with the other stages succeeding, the final status is `done`. -/
theorem c7_failed_attachment_placeholder_not_failed (task : TaskObj)
    (attempts : List (Option Manifest))
    (http : Str → Nat → Option (Str × Option Str))
    (pushA : Payload → Nat → Except String (Str × Str × Str))
    (notifyResp : Nat → Option Nat) (att : Attachment) (n url : Str)
    (p : Payload) (t : Str × Str × Str)
    (hmem : att ∈ task.attachments)
    (huniq : ∀ a ∈ task.attachments, attachment_key a = some n → a = att)
    (hk : attachment_key att = some n) (hu : att.url = some url)
    (hne : url ≠ []) (hnd : isPre (strOf "data:") url = false)
    (hf : ∀ i, http url i = none)
    (hbrief : task.brief ≠ [])
    (hgen : stage_generate attempts = Except.ok p)
    (hpush : stage_repo_push
        (pushA (process_attachments task.attachments http p)) =
      Except.ok t) :
    (∃ entries,
        (process_attachments task.attachments http p).app_code =
            AppCode.files entries ∧
          app_code_get entries n =
            some (Content.text (attachment_placeholder n))) ∧
      final_status (process_task task attempts http pushA notifyResp) =
        "done" := by
  have hatts : task.attachments.isEmpty = false := by
    cases h : task.attachments with
    | nil => rw [h] at hmem; cases hmem
    | cons a l => rfl
  constructor
  · unfold process_attachments
    rw [hatts]
    simp only [Bool.false_eq_true, if_false]
    refine ⟨_, rfl, ?_⟩
    exact c7_placeholder_after_fold http att n url hk hu hne hnd hf
      task.attachments hmem huniq _
  · by_cases hurl : task.evaluation_url = []
    · have htr : process_task task attempts http pushA notifyResp =
          ["processing", "generated", "pushed", "done"] := by
        simp [process_task, hbrief, hgen, hpush, hurl]
      rw [htr]; rfl
    · by_cases hnot : stage_notify_delivered notifyResp = true
      · have htr : process_task task attempts http pushA notifyResp =
            ["processing", "generated", "pushed", "notified", "done"] := by
          simp [process_task, hbrief, hgen, hpush, hurl, hnot]
        rw [htr]; rfl
      · have hnot' : stage_notify_delivered notifyResp = false := by
          cases h : stage_notify_delivered notifyResp with
          | true => exact absurd h hnot
          | false => rfl
        have htr : process_task task attempts http pushA notifyResp =
            ["processing", "generated", "pushed", "notify_failed", "done"] := by
          simp [process_task, hbrief, hgen, hpush, hurl, hnot']
        rw [htr]; rfl

/-- Concrete attachment whose URL always 404s in the C7 witness run. -/
def c7Att : Attachment :=
  ⟨some (strOf "data.csv"), none, some (strOf "https://files.example/data.csv")⟩

/-- Concrete task for the C7 witness run (no callback URL). -/
def c7Task : TaskObj :=
  ⟨3, strOf "a@b.c", strOf "demo3", 1, strOf "n3",
    strOf "Show the data", [], strOf "", [c7Att]⟩

theorem c7_failed_attachment_witness :
    (c7Att ∈ c7Task.attachments ∧
      attachment_key c7Att = some (strOf "data.csv") ∧
      c7Att.url = some (strOf "https://files.example/data.csv") ∧
      stage_generate [some cxManifest] =
        Except.ok c3Payload) ∧
    ((∃ entries,
        (process_attachments c7Task.attachments noHttp c3Payload).app_code =
            AppCode.files entries ∧
          app_code_get entries (strOf "data.csv") =
            some (Content.text (attachment_placeholder
              (strOf "data.csv")))) ∧
      final_status (process_task c7Task [some cxManifest] noHttp okPush
        okNotify) = "done") :=
  ⟨⟨by decide, by decide, by decide, rfl⟩,
    c7_failed_attachment_placeholder_not_failed c7Task [some cxManifest]
      noHttp okPush okNotify c7Att (strOf "data.csv")
      (strOf "https://files.example/data.csv") c3Payload okTriple
      (by decide) (by decide) (by decide) (by decide) (by decide)
      (by decide) (fun _ => rfl) (by decide) rfl rfl⟩

/-! ## `app/github_utils.py`

The remote repository contents API is modelled as a mapping from paths
to file contents.  A file's blob SHA is opaque to the embedded control
flow (it is fetched and attached to the PUT payload, nothing else), so
it is represented by the current content. -/

/-- Remote repository state: path → content. -/
abbrev RepoFs := List (Str × Str)

/-- Lookup of a remote file's content by path. -/
def fs_get : RepoFs → Str → Option Str
  | [], _ => none
  | (p', c') :: rest, p => if p' = p then some c' else fs_get rest p

/-- Upsert of a remote file (order-preserving). -/
def fs_set : RepoFs → Str → Str → RepoFs
  | [], p, c => [(p, c)]
  | (p', c') :: rest, p, c =>
    if p' = p then (p, c) :: rest else (p', c') :: fs_set rest p c

/-- Embeds `_get_file_sha` (200 → SHA of the existing blob, 404 → None). -/
def get_file_sha (fs : RepoFs) (path : Str) : Option Str := fs_get fs path

/-- Embeds `create_or_update_file`: fetch the current SHA (attached to
the PUT payload when the file exists), then PUT the new base64-encoded
content; the path ends up mapped to exactly the pushed content. -/
def create_or_update_file (fs : RepoFs) (path content : Str) : RepoFs :=
  let _sha := get_file_sha fs path
  fs_set fs path content

/-- Embeds `create_or_update_binary_file` (same state effect). -/
def create_or_update_binary_file (fs : RepoFs) (path content : Str) :
    RepoFs :=
  let _sha := get_file_sha fs path
  fs_set fs path content

/-- The repository metadata JSON returned by `create_repo` (field used
by `create_repo_and_push`). -/
structure RepoInfo where
  pushed_at : Option Str
deriving DecidableEq

/-- `f"{repo_hint}".replace(" ", "-").lower()`. -/
def repo_name_of_hint (hint : Str) : Str :=
  lowerStr (hint.map (fun c => if c == ' ' then '-' else c))

/-- The payload POSTed by `_stage_notify_eval`. -/
structure NotifyPayload where
  email : Str
  task : Str
  round : Int
  nonce : Str
  repo_url : Str
  commit_sha : Str
  pages_url : Str
deriving DecidableEq

/-- Embeds the payload construction of `app/worker.py::_stage_notify_eval`. -/
def stage_notify_payload (t : TaskObj) (repo_url commit_sha pages_url : Str) :
    NotifyPayload :=
  ⟨t.email, t.task, t.round, t.nonce, repo_url, commit_sha, pages_url⟩

/-- Embeds `create_repo_and_push`: push every `app_code` file (or the
monolithic string as `index.html`), then overwrite `README.md` and
`LICENSE` with the payload's `readme`/`license` values (`""` when
absent), enable Pages (`pagesHtmlUrl` is the optional `html_url` of the
Pages response), and return
`(repo_url, commit_sha, pages_url)` where `commit_sha` is
`repo_info.get("pushed_at", str(time.time()))` — `nowStr` models the
rendered clock value. -/
def create_repo_and_push (fs : RepoFs) (generated : Payload)
    (repoHint owner : Str) (info : RepoInfo) (nowStr : Str)
    (pagesHtmlUrl : Option Str) : RepoFs × (Str × Str × Str) :=
  let repo := repo_name_of_hint repoHint
  let fs1 :=
    match generated.app_code with
    | AppCode.files l =>
      l.foldl
        (fun acc kv =>
          match kv.2 with
          | Content.text s => create_or_update_file acc kv.1 s
          | Content.bin b => create_or_update_binary_file acc kv.1 b)
        fs
    | AppCode.mono s => create_or_update_file fs (strOf "index.html") s
  let fs2 := create_or_update_file fs1 (strOf "README.md")
    (generated.readme.getD [])
  let fs3 := create_or_update_file fs2 (strOf "LICENSE")
    (generated.license.getD [])
  let pages_url :=
    match pagesHtmlUrl with
    | some u =>
      if u = [] then
        strOf "https://" ++ owner ++ strOf ".github.io/" ++ repo ++ strOf "/"
      else u
    | none =>
      strOf "https://" ++ owner ++ strOf ".github.io/" ++ repo ++ strOf "/"
  let commit_sha := info.pushed_at.getD nowStr
  (fs3, (strOf "https://github.com/" ++ owner ++ strOf "/" ++ repo,
    commit_sha, pages_url))

theorem fs_get_set_eq (fs : RepoFs) (p c : Str) :
    fs_get (fs_set fs p c) p = some c := by
  induction fs with
  | nil => simp [fs_set, fs_get]
  | cons hd tl ih =>
    obtain ⟨p', c'⟩ := hd
    by_cases hp : p' = p
    · simp [fs_set, hp, fs_get]
    · simp [fs_set, hp, fs_get, ih]

theorem fs_get_set_ne (fs : RepoFs) (p q c : Str) (h : p ≠ q) :
    fs_get (fs_set fs p c) q = fs_get fs q := by
  induction fs with
  | nil => simp [fs_set, fs_get, h]
  | cons hd tl ih =>
    obtain ⟨p', c'⟩ := hd
    by_cases hp : p' = p
    · subst hp
      simp [fs_set, fs_get, h]
    · simp [fs_set, hp, fs_get, ih]

/-- Claim C6 (amended): the publish step overwrites `README.md` with the
payload's `readme` value (the empty string when absent); the remote SHA
is fetched only to satisfy the contents-API update precondition, the
previous README content is not preserved, and no dated round-summary or
header block is written. -/
theorem c6_readme_overwritten (fs : RepoFs) (generated : Payload)
    (repoHint owner : Str) (info : RepoInfo) (nowStr : Str)
    (pagesHtmlUrl : Option Str) :
    fs_get (create_repo_and_push fs generated repoHint owner info nowStr
        pagesHtmlUrl).1 (strOf "README.md") =
      some (generated.readme.getD []) := by
  unfold create_repo_and_push
  simp only [create_or_update_file]
  rw [fs_get_set_ne _ _ _ _ (by decide)]
  exact fs_get_set_eq _ _ _

/-- Pre-existing remote state used by the C6 counterexample. -/
def c6OldReadme : Str := strOf "# Existing project documentation"

/-- A repository that already has a README. -/
def c6Fs : RepoFs := [(strOf "README.md", c6OldReadme)]

/-- A generated payload with no `readme` key. -/
def c6Generated : Payload :=
  ⟨AppCode.files [(strOf "index.html", Content.text (strOf "<h1>hi</h1>"))],
    none, none⟩

/-- Repo metadata with a `pushed_at` field. -/
def c6Info : RepoInfo := ⟨some (strOf "2025-01-01T00:00:00Z")⟩

/-- Claim C6 counterexample: pushing over a repository whose `README.md`
already exists replaces its content with the empty string — the
previously existing content is not left in place and no dated
round-summary section is appended. -/
theorem c6_counterexample_readme_clobbered :
    fs_get (create_repo_and_push c6Fs c6Generated (strOf "demo")
        (strOf "owner") c6Info (strOf "1700000000.0") none).1
        (strOf "README.md") = some [] ∧
      substrB c6OldReadme [] = false ∧ c6OldReadme ≠ [] := by
  refine ⟨rfl, rfl, by decide⟩

/-- Claim C9: the `commit_sha` returned by `create_repo_and_push` is the
repository metadata field `pushed_at` captured at lookup/creation time
(or the rendered current time when absent); it does not depend on the
files pushed or on the prior repository state, and it is forwarded
verbatim as the `commit_sha` of the evaluator notification payload. -/
theorem c9_commit_sha_is_pushed_at (fs : RepoFs) (generated : Payload)
    (repoHint owner : Str) (info : RepoInfo) (nowStr : Str)
    (pagesHtmlUrl : Option Str) :
    (create_repo_and_push fs generated repoHint owner info nowStr
        pagesHtmlUrl).2.2.1 = info.pushed_at.getD nowStr ∧
      (∀ (fs' : RepoFs) (generated' : Payload),
        (create_repo_and_push fs' generated' repoHint owner info nowStr
            pagesHtmlUrl).2.2.1 =
          (create_repo_and_push fs generated repoHint owner info nowStr
            pagesHtmlUrl).2.2.1) ∧
      (∀ (t : TaskObj) (r c p : Str),
        (stage_notify_payload t r c p).commit_sha = c) :=
  ⟨rfl, fun _ _ => rfl, fun _ _ _ _ => rfl⟩

/-! ## Prompt composition (`app/llm_generator.py::generate_manifest`)

The regex `findall` scanners of `_extract_selectors_from_checks` are
embedded as fuelled character scanners.  Python iterates the collected
`set`s in unspecified hash order when joining; the model keeps
first-occurrence order (no proved property depends on the order). -/

/-- The `[A-Za-z0-9_-]` token class. -/
def isTokC (c : Char) : Bool := c.isAlpha || c.isDigit || c == '_' || c == '-'

/-- The `[A-Za-z0-9]` token class. -/
def isAlnumC (c : Char) : Bool := c.isAlpha || c.isDigit

/-- The `[A-Za-z0-9_>\s]` chain class of the compound-selector pattern. -/
def isChainC (c : Char) : Bool :=
  c.isAlpha || c.isDigit || c == '_' || c == '>' || isPyWs c

/-- `re.findall(marker + "([class]+)", s)`: scan for the literal marker
followed by a non-empty run of `allowed` characters, left-to-right and
non-overlapping. -/
def scan_findall (marker : Str) (allowed : Char → Bool) :
    Nat → Str → List Str
  | 0, _ => []
  | fuel + 1, s =>
    match s with
    | [] => []
    | c :: rest =>
      if isPre marker (c :: rest) then
        let after := (c :: rest).drop marker.length
        let tok := after.takeWhile allowed
        if tok = [] then scan_findall marker allowed fuel rest
        else tok :: scan_findall marker allowed fuel (after.drop tok.length)
      else scan_findall marker allowed fuel rest

/-- `findall` entry point with sufficient fuel. -/
def findall_marker (marker : Str) (allowed : Char → Bool) (s : Str) :
    List Str :=
  scan_findall marker allowed (s.length + 1) s

/-- Embeds the (unmatchable-in-practice) pattern
`querySelector\\(['\"]([a-zA-Z]+)['\"]\\)` of line 277: as a regex it
requires a literal backslash before the quotes and the parenthesis.
Python's `findall` with its two groups would collect pairs; since the
pattern needs a literal backslash after `querySelector` — absent from
ordinary check strings — the model keeps only the letter group. -/
def scan_broken_qs : Nat → Str → List Str
  | 0, _ => []
  | fuel + 1, s =>
    match s with
    | [] => []
    | c :: rest =>
      if isPre (strOf "querySelector\\") (c :: rest) then
        match (c :: rest).drop 14 with
        | q :: r2 =>
          if q == sqC || q == '"' then
            let tok := r2.takeWhile (fun ch => ch.isAlpha)
            if tok = [] then scan_broken_qs fuel rest
            else
              match r2.drop tok.length with
              | q2 :: b :: p :: r3 =>
                if (q2 == sqC || q2 == '"') && b == '\\' && p == ')' then
                  tok :: scan_broken_qs fuel r3
                else scan_broken_qs fuel rest
              | _ => scan_broken_qs fuel rest
          else scan_broken_qs fuel rest
        | [] => scan_broken_qs fuel rest
      else scan_broken_qs fuel rest

/-- The broken `querySelector` findall with sufficient fuel. -/
def findall_broken_qs (s : Str) : List Str :=
  scan_broken_qs (s.length + 1) s

/-- First-occurrence deduplication (models Python `set` accumulation). -/
def dedupGo : List Str → List Str → List Str
  | [], _ => []
  | x :: rest, seen =>
    if seen.contains x then dedupGo rest seen
    else x :: dedupGo rest (x :: seen)

/-- Deduplicate keeping first occurrences. -/
def dedupStr (l : List Str) : List Str := dedupGo l []

/-- `" ".join(checks)`. -/
def joinSpace : List Str → Str
  | [] => []
  | [c] => c
  | c :: rest => c ++ ' ' :: joinSpace rest

/-- `", ".join(items)`. -/
def joinComma : List Str → Str
  | [] => []
  | [c] => c
  | c :: rest => c ++ strOf ", " ++ joinComma rest

/-- `"\n".join(items)`. -/
def joinNL : List Str → Str
  | [] => []
  | [c] => c
  | c :: rest => c ++ '\n' :: joinNL rest

/-- `" → ".join(items)`. -/
def joinArrow : List Str → Str
  | [] => []
  | [c] => c
  | c :: rest => c ++ strOf " → " ++ joinArrow rest

/-- The ids collected by `_extract_selectors_from_checks` (`#token`). -/
def sel_ids (checks : List Str) : List Str :=
  dedupStr (checks.map (findall_marker (strOf "#") isTokC)).flatten

/-- The classes collected (`.token`). -/
def sel_classes (checks : List Str) : List Str :=
  dedupStr (checks.map (findall_marker (strOf ".") isTokC)).flatten

/-- The tags collected (`<tag` plus the broken `querySelector` pattern). -/
def sel_tags (checks : List Str) : List Str :=
  dedupStr (checks.map
    (fun c => findall_marker (strOf "<") isAlnumC c ++ findall_broken_qs c)).flatten

/-- The data attributes collected (`dataset.token`). -/
def sel_data_attrs (checks : List Str) : List Str :=
  dedupStr (checks.map (findall_marker (strOf "dataset.") isTokC)).flatten

/-- One step of the compound pattern `#([A-Za-z0-9_-]+)\s+([A-Za-z0-9_>\s]+)`
on the space-joined checks; each match yields `(id-token, chain)`.
Greedy `\s+` takes the whole whitespace run when a chain character
follows; otherwise it backtracks one whitespace character into the chain
group (possible only when the run has length at least 2). -/
def scan_compound : Nat → Str → List (Str × Str)
  | 0, _ => []
  | fuel + 1, s =>
    match s with
    | [] => []
    | c :: rest =>
      if c == '#' then
        let idtok := rest.takeWhile isTokC
        if idtok = [] then scan_compound fuel rest
        else
          let afterId := rest.drop idtok.length
          let wsRun := afterId.takeWhile isPyWs
          if wsRun = [] then scan_compound fuel rest
          else
            let afterWs := afterId.drop wsRun.length
            let chainRun := afterWs.takeWhile isChainC
            if chainRun ≠ [] then
              (idtok, chainRun) ::
                scan_compound fuel (afterWs.drop chainRun.length)
            else if 2 ≤ wsRun.length then
              (idtok, [wsRun.getLastD ' ']) :: scan_compound fuel afterWs
            else scan_compound fuel rest
      else scan_compound fuel rest

/-- Maximal `[A-Za-z]+` runs (the `tags_in_chain` findall). -/
def scan_alpha_runs : Nat → Str → List Str
  | 0, _ => []
  | fuel + 1, s =>
    match s with
    | [] => []
    | c :: rest =>
      if c.isAlpha then
        let run := (c :: rest).takeWhile (fun ch => ch.isAlpha)
        run :: scan_alpha_runs fuel ((c :: rest).drop run.length)
      else scan_alpha_runs fuel rest

/-- One compound hint line, when the chain contains letter runs. -/
def hint_of (idname chain : Str) : Option Str :=
  let ts := scan_alpha_runs (chain.length + 1) chain
  if ts = [] then none
  else some (strOf "For #" ++ idname ++ strOf ", ensure it contains " ++
    joinArrow (ts.map (fun t => '<' :: t ++ ['>'])) ++ strOf " structure.")

/-- The compound-selector hints of `_extract_selectors_from_checks`. -/
def compound_hints (checks : List Str) : List Str :=
  let joined := joinSpace checks
  (scan_compound (joined.length + 1) joined).filterMap
    (fun pr => hint_of pr.1 pr.2)

/-- The `selector_info` guidance block built in `generate_manifest`. -/
def selector_info (checks : List Str) : Str :=
  let ids := sel_ids checks
  let classes := sel_classes checks
  let tags := sel_tags checks
  let datas := sel_data_attrs checks
  (if ids = [] then []
   else strOf "\nYou must include elements with these IDs: " ++
     joinComma (ids.map (fun i => '#' :: i)) ++ strOf ".") ++
  (if classes = [] then []
   else strOf "\nInclude containers with these CSS classes: " ++
     joinComma (classes.map (fun c => '.' :: c)) ++ strOf ".") ++
  (if tags = [] then []
   else strOf "\nEnsure proper HTML tags exist: " ++
     joinComma (tags.map (fun t => '<' :: t ++ ['>'])) ++ strOf ".") ++
  (if datas = [] then []
   else strOf "\nAdd data attributes where applicable: " ++
     joinComma (datas.map (fun a => strOf "data-" ++ a)) ++ strOf ".")

/-- The theme-requirement test on the checks (lines 319-322). -/
def theme_required (checks : List Str) : Bool :=
  checks.any (fun c =>
    substrB (strOf ".dark-theme") c || substrB (strOf ".light-theme") c ||
      substrB (strOf "#theme-toggle") c)

/-- The theme requirement appended to the brief when required. -/
def theme_note : Str :=
  strOf "\n\nIMPORTANT: This task REQUIRES both a \x60.dark-theme\x60 and \x60.light-theme\x60 section and a visible \x60#theme-toggle\x60 button. Include JS logic to switch themes. Default view should be the light theme."

/-- Everything `generate_manifest` appends to the brief before building
the prompt (selector guidance, compound hints, theme requirement). -/
def brief_suffix (checks : List Str) : Str :=
  (if selector_info checks = [] then []
   else strOf "\n\nSelector Awareness Guidance:" ++ selector_info checks) ++
  (if compound_hints checks = [] then []
   else strOf "\n\nComplex Selector Hints:\n" ++
     joinNL ((compound_hints checks).map (fun h => strOf "- " ++ h))) ++
  (if theme_required checks then theme_note else [])

/-- The augmented brief handed to the prompt template. -/
def augmented_brief (brief : Str) (checks : List Str) : Str :=
  brief ++ brief_suffix checks

/-- `"\n".join([f" - {c}" for c in checks])`. -/
def checks_text : List Str → Str
  | [] => []
  | [c] => strOf " - " ++ c
  | c :: rest => strOf " - " ++ c ++ '\n' :: checks_text rest

/-- One line of `_summarize_attachments` (extension tests are substring
tests on the lowered name, as in the source). -/
def summarize_attachment (a : Attachment) : Str :=
  let name :=
    match a.name with
    | some n => if n = [] then strOf "unnamed" else n
    | none => strOf "unnamed"
  let low := lowerStr name
  if substrB (strOf ".png") low || substrB (strOf ".jpg") low ||
      substrB (strOf ".jpeg") low || substrB (strOf ".gif") low ||
      substrB (strOf ".svg") low then
    strOf " - " ++ name ++ strOf ": image file (display in <img>)"
  else if substrB (strOf ".csv") low || substrB (strOf ".xlsx") low then
    strOf " - " ++ name ++ strOf ": CSV/Excel data table (render in <table>)"
  else if substrB (strOf ".json") low then
    strOf " - " ++ name ++ strOf ": JSON data (visualize)"
  else if substrB (strOf ".pdf") low then
    strOf " - " ++ name ++ strOf ": PDF document (embed viewer, link download)"
  else if substrB (strOf ".mp4") low || substrB (strOf ".webm") low ||
      substrB (strOf ".mp3") low || substrB (strOf ".wav") low then
    strOf " - " ++ name ++ strOf ": media file (add player)"
  else strOf " - " ++ name ++ strOf ": generic file"

/-- Embeds `_summarize_attachments`. -/
def summarize_attachments : List Attachment → Str
  | [] => strOf "No attachments."
  | l => joinNL (l.map summarize_attachment)

/-- `MANIFEST_PROMPT_TEMPLATE` up to `{brief}`. -/
def tpl1 : Str :=
  strOf "\nPersona:\nYou are a professional web developer building apps for automated evaluation.\n\nTask:\nGenerate a deployable single-page web app that fulfills the brief and passes\nall checks while visually presenting all attachments (images, tables, PDFs, videos, etc.)\nin a professional Bootstrap 5 layout.\n\nContext:\n- Brief: "

/-- Template segment between `{brief}` and `{nonce}`. -/
def tpl2 : Str := strOf "\n- Nonce: "

/-- Template segment between `{nonce}` and `{round}`. -/
def tpl3 : Str := strOf "\n- Round: "

/-- Template segment between `{round}` and `{attachments_summary}`. -/
def tpl4 : Str := strOf "\n- Attachments:\n"

/-- Template segment between `{attachments_summary}` and `{checks_text}`. -/
def tpl5 : Str :=
  strOf "\n\n- Each check below is a JavaScript snippet executed in the browser.\n  Ensure these elements or behaviors exist exactly as named:\n"

/-- Template tail after `{checks_text}` (with `{{`/`}}` unescaped). -/
def tpl6 : Str :=
  strOf "\n\nFormat:\nReturn only valid JSON like:\n\x7b\"files\":[\x7b\"path\":\"index.html\",\"content\":\"<html>...</html>\"\x7d]\x7d\n\nOutput Requirements:\n- No markdown formatting or explanations.\n- Must be valid JSON parsable by \x60json.loads()\x60.\n"

/-- `str(round_num)`. -/
def int_str (n : Int) : Str := strOf (toString n)

/-- Embeds the prompt construction of `generate_manifest` (brief
augmentation followed by `MANIFEST_PROMPT_TEMPLATE.format(...)`). -/
def generate_prompt (brief : Str) (checks : List Str)
    (atts : List Attachment) (nonce : Str) (roundNum : Int) : Str :=
  tpl1 ++ augmented_brief brief checks ++ tpl2 ++ nonce ++ tpl3 ++
    int_str roundNum ++ tpl4 ++ summarize_attachments atts ++ tpl5 ++
    checks_text checks ++ tpl6

/-- The literal placeholder the spec says must be substituted. -/
def seedToken : Str := strOf "$\x7bseed\x7d"

theorem checks_text_mem (c : Str) :
    ∀ (checks : List Str), c ∈ checks →
      ∃ a b, checks_text checks = a ++ c ++ b := by
  intro checks
  induction checks with
  | nil => intro h; cases h
  | cons c' rest ih =>
    intro h
    rcases List.mem_cons.mp h with h | h
    · subst h
      cases rest with
      | nil => exact ⟨strOf " - ", [], by simp [checks_text]⟩
      | cons d ds =>
        refine ⟨strOf " - ", '\n' :: checks_text (d :: ds), ?_⟩
        simp [checks_text, List.append_assoc]
    · obtain ⟨a, b, hab⟩ := ih h
      cases rest with
      | nil => cases h
      | cons d ds =>
        refine ⟨strOf " - " ++ c' ++ '\n' :: a, b, ?_⟩
        simp [checks_text, hab, List.append_assoc]

/-- Claim C2 (amended): `generate_manifest` embeds the brief and the
check strings verbatim in the prompt (the nonce appears only as the
separate `Nonce:` context field); no `${seed}` substitution is applied,
so whenever the brief or any check contains the literal `${seed}`, the
prompt handed to the Model Gateway contains it too. -/
theorem c2_seed_placeholder_reaches_prompt (brief : Str)
    (checks : List Str) (atts : List Attachment) (nonce : Str)
    (roundNum : Int)
    (h : substrB seedToken brief = true ∨
      ∃ c ∈ checks, substrB seedToken c = true) :
    substrB seedToken (generate_prompt brief checks atts nonce roundNum) =
      true := by
  unfold generate_prompt augmented_brief
  rcases h with h | ⟨c, hc, h⟩
  · have := substrB_of_sub seedToken tpl1 brief
      (brief_suffix checks ++ tpl2 ++ nonce ++ tpl3 ++ int_str roundNum ++
        tpl4 ++ summarize_attachments atts ++ tpl5 ++ checks_text checks ++
        tpl6) h
    simpa [List.append_assoc] using this
  · obtain ⟨a, b, hab⟩ := checks_text_mem c checks hc
    rw [hab]
    have := substrB_of_sub seedToken
      (tpl1 ++ (brief ++ brief_suffix checks) ++ tpl2 ++ nonce ++ tpl3 ++
        int_str roundNum ++ tpl4 ++ summarize_attachments atts ++ tpl5 ++ a)
      c (b ++ tpl6) h
    simpa [List.append_assoc] using this

/-- Brief used in the C2 concrete runs. -/
def c2Brief : Str := strOf "Show the seed value $\x7bseed\x7d in a banner"

/-- Claim C2 counterexample: with a non-empty nonce and a brief
containing `${seed}`, the composed prompt still contains the literal
`${seed}` — the placeholder is not substituted with the round nonce. -/
theorem c2_counterexample_seed_not_substituted :
    strOf "abc123" ≠ [] ∧ substrB seedToken c2Brief = true ∧
      substrB seedToken
        (generate_prompt c2Brief [] [] (strOf "abc123") 1) = true := by
  refine ⟨by decide, by decide, by decide⟩

theorem c2_seed_placeholder_reaches_prompt_witness :
    (substrB seedToken c2Brief = true ∨
      ∃ c ∈ ([] : List Str), substrB seedToken c = true) ∧
      substrB seedToken
        (generate_prompt c2Brief [] [] (strOf "xyz789") 2) = true :=
  ⟨Or.inl (by decide),
    c2_seed_placeholder_reaches_prompt c2Brief [] [] (strOf "xyz789") 2
      (Or.inl (by decide))⟩

/-! ## Theme-injection repair (`app/llm_generator.py` lines 432-451)

The injected block `theme_html` is written as a concatenation whose
middle segments are exactly the marker attributes the detection pass
looks for, so that re-detection after injection is provable by
substring lemmas.  The concatenation equals the source literal. -/

/-- The `id="theme-toggle"` attribute (also a detection marker). -/
def mToggleAttr : Str := strOf "id=\"theme-toggle\""

/-- The `class="light-theme"` attribute (also a detection marker). -/
def mLightAttr : Str := strOf "class=\"light-theme\""

/-- The `class="dark-theme"` attribute (also a detection marker). -/
def mDarkAttr : Str := strOf "class=\"dark-theme\""

/-- `theme_html` up to the toggle button's id attribute. -/
def thA : Str :=
  strOf "\n<!-- Theme toggle & containers (injected by generator to satisfy checks) -->\n<div class=\"tds-theme-controls\" style=\"margin-bottom:1rem;\">\n  <button "

/-- `theme_html` between the toggle id and the light container class. -/
def thB : Str :=
  strOf " class=\"btn btn-secondary\">Toggle Theme</button>\n</div>\n\n<div "

/-- `theme_html` between the light and dark container classes. -/
def thC : Str :=
  strOf " style=\"display:block;\">\n  <!-- Light theme container (injected) -->\n</div>\n<div "

/-- `theme_html` tail after the dark container class. -/
def thD : Str :=
  strOf " style=\"display:none; background:#111; color:#eee; padding:1rem;\">\n  <!-- Dark theme container (injected) -->\n</div>\n<script>\n(function()\x7b\n  try\x7b\n    const t = document.getElementById(\x27theme-toggle\x27);\n    if(t)\x7b\n      t.addEventListener(\x27click\x27, function()\x7b\n        document.querySelectorAll(\x27.light-theme\x27).forEach(el=>el.style.display = el.style.display===\x27none\x27?\x27block\x27:\x27none\x27);\n        document.querySelectorAll(\x27.dark-theme\x27).forEach(el=>el.style.display = el.style.display===\x27none\x27?\x27block\x27:\x27none\x27);\n      \x7d);\n    \x7d\n  \x7dcatch(e)\x7bconsole.warn(\x27theme toggle init failed\x27, e)\x7d\n\x7d)();\n</script>\n"

/-- The injected theme block (the source's `theme_html` literal). -/
def theme_html : Str :=
  thA ++ mToggleAttr ++ thB ++ mLightAttr ++ thC ++ mDarkAttr ++ thD

/-- The `has_dark` detection of line 437. -/
def has_dark (content : Str) : Bool :=
  substrB (strOf ".dark-theme") content || substrB mDarkAttr content ||
    substrB (strOf "class=\x27dark-theme\x27") content

/-- The `has_light` detection of line 438. -/
def has_light (content : Str) : Bool :=
  substrB (strOf ".light-theme") content || substrB mLightAttr content ||
    substrB (strOf "class=\x27light-theme\x27") content

/-- The `has_toggle` detection of line 439. -/
def has_toggle (content : Str) : Bool :=
  substrB mToggleAttr content || substrB (strOf "id=\x27theme-toggle\x27") content ||
    substrB (strOf "#theme-toggle") content

/-- `has_dark and has_light and has_toggle`. -/
def theme_markers_present (content : Str) : Bool :=
  has_dark content && has_light content && has_toggle content

/-- Fuelled loop of Python `str.replace` (left-to-right,
non-overlapping, replaces all occurrences). -/
def replaceAllGo (pat rep : Str) : Nat → Str → Str
  | 0, l => l
  | _ + 1, [] => []
  | fuel + 1, c :: rest =>
    if isPre pat (c :: rest) then
      rep ++ replaceAllGo pat rep fuel ((c :: rest).drop pat.length)
    else c :: replaceAllGo pat rep fuel rest

/-- Python `content.replace(pat, rep)`. -/
def replaceAll (pat rep l : Str) : Str := replaceAllGo pat rep l.length l

/-- Embeds the injection applied to the first `index.html` content
(lines 436-450): skip when all three markers are present, else splice
`theme_html` before `</main>`, else before `</body>`, else append. -/
def theme_inject_content (content : Str) : Str :=
  if theme_markers_present content then content
  else if substrB (strOf "</main>") content then
    replaceAll (strOf "</main>") (theme_html ++ strOf "</main>") content
  else if substrB (strOf "</body>") content then
    replaceAll (strOf "</body>") (theme_html ++ strOf "</body>") content
  else content ++ theme_html

/-- Embeds the repair loop over the manifest files (lines 433-451): only
the first file whose lowered path is `index.html` is patched; the loop
breaks after it. -/
def theme_repair_files : List ManifestFile → List ManifestFile
  | [] => []
  | f :: rest =>
    if lowerStr f.path = strOf "index.html" then
      ⟨f.path, theme_inject_content f.content, f.encoding⟩ :: rest
    else f :: theme_repair_files rest

theorem replaceAllGo_contains_rep (pat rep : Str) (hpat : pat ≠ []) :
    ∀ (fuel : Nat) (l : Str), l.length ≤ fuel → substrB pat l = true →
      ∃ a b, replaceAllGo pat rep fuel l = a ++ rep ++ b := by
  intro fuel
  induction fuel with
  | zero =>
    intro l hl hs
    have : l = [] := by
      cases l with
      | nil => rfl
      | cons c r => simp at hl
    subst this
    cases pat with
    | nil => exact absurd rfl hpat
    | cons p ps => simp [substrB, isPre] at hs
  | succ n ih =>
    intro l hl hs
    cases l with
    | nil =>
      cases pat with
      | nil => exact absurd rfl hpat
      | cons p ps => simp [substrB, isPre] at hs
    | cons c rest =>
      by_cases hp : isPre pat (c :: rest) = true
      · exact ⟨[], replaceAllGo pat rep n ((c :: rest).drop pat.length),
          by simp [replaceAllGo, hp]⟩
      · have hs' : substrB pat rest = true := by
          simp only [substrB, Bool.or_eq_true] at hs
          rcases hs with h | h
          · exact absurd h hp
          · exact h
        have hl' : rest.length ≤ n := by
          simp only [List.length_cons] at hl
          omega
        obtain ⟨a, b, hab⟩ := ih rest hl' hs'
        exact ⟨c :: a, b, by simp [replaceAllGo, hp, hab]⟩

theorem replaceAll_contains_rep (pat rep l : Str) (hpat : pat ≠ [])
    (hs : substrB pat l = true) :
    ∃ a b, replaceAll pat rep l = a ++ rep ++ b :=
  replaceAllGo_contains_rep pat rep hpat l.length l (le_refl _) hs

theorem mDark_in_theme_html : substrB mDarkAttr theme_html = true := by
  have := substrB_of_sub mDarkAttr
    (thA ++ mToggleAttr ++ thB ++ mLightAttr ++ thC) mDarkAttr thD
    (substrB_self mDarkAttr)
  simpa [theme_html, List.append_assoc] using this

theorem mLight_in_theme_html : substrB mLightAttr theme_html = true := by
  have := substrB_of_sub mLightAttr (thA ++ mToggleAttr ++ thB) mLightAttr
    (thC ++ mDarkAttr ++ thD) (substrB_self mLightAttr)
  simpa [theme_html, List.append_assoc] using this

theorem mToggle_in_theme_html : substrB mToggleAttr theme_html = true := by
  have := substrB_of_sub mToggleAttr thA mToggleAttr
    (thB ++ mLightAttr ++ thC ++ mDarkAttr ++ thD) (substrB_self mToggleAttr)
  simpa [theme_html, List.append_assoc] using this

theorem theme_markers_present_of_contains (content : Str)
    (h : ∃ a b, content = a ++ theme_html ++ b) :
    theme_markers_present content = true := by
  obtain ⟨a, b, rfl⟩ := h
  have hd : substrB mDarkAttr (a ++ theme_html ++ b) = true :=
    substrB_of_sub _ a theme_html b mDark_in_theme_html
  have hl : substrB mLightAttr (a ++ theme_html ++ b) = true :=
    substrB_of_sub _ a theme_html b mLight_in_theme_html
  have ht : substrB mToggleAttr (a ++ theme_html ++ b) = true :=
    substrB_of_sub _ a theme_html b mToggle_in_theme_html
  simp only [List.append_assoc] at hd hl ht
  simp [theme_markers_present, has_dark, has_light, has_toggle, hd, hl, ht]

theorem theme_inject_contains (content : Str)
    (h : theme_markers_present content = false) :
    ∃ a b, theme_inject_content content = a ++ theme_html ++ b := by
  unfold theme_inject_content
  rw [h]
  simp only [Bool.false_eq_true, if_false]
  by_cases hmain : substrB (strOf "</main>") content = true
  · rw [if_pos hmain]
    obtain ⟨a, b, hab⟩ := replaceAll_contains_rep (strOf "</main>")
      (theme_html ++ strOf "</main>") content (by decide) hmain
    exact ⟨a, strOf "</main>" ++ b, by rw [hab]; simp [List.append_assoc]⟩
  · rw [if_neg hmain]
    by_cases hbody : substrB (strOf "</body>") content = true
    · rw [if_pos hbody]
      obtain ⟨a, b, hab⟩ := replaceAll_contains_rep (strOf "</body>")
        (theme_html ++ strOf "</body>") content (by decide) hbody
      exact ⟨a, strOf "</body>" ++ b, by rw [hab]; simp [List.append_assoc]⟩
    · rw [if_neg hbody]
      exact ⟨content, [], by simp⟩

theorem theme_inject_idem (content : Str) :
    theme_inject_content (theme_inject_content content) =
      theme_inject_content content := by
  have hskip : ∀ y : Str, theme_markers_present y = true →
      theme_inject_content y = y := by
    intro y hy
    simp [theme_inject_content, hy]
  cases h : theme_markers_present content with
  | true => rw [hskip content h, hskip content h]
  | false =>
    exact hskip _ (theme_markers_present_of_contains _
      (theme_inject_contains content h))

theorem theme_repair_files_idem (files : List ManifestFile) :
    theme_repair_files (theme_repair_files files) =
      theme_repair_files files := by
  induction files with
  | nil => rfl
  | cons f rest ih =>
    by_cases hp : lowerStr f.path = strOf "index.html"
    · simp [theme_repair_files, hp, theme_inject_idem]
    · simp [theme_repair_files, hp, ih]

/-- Claim C8: the theme-injection repair is idempotent — for every
manifest with an `index.html` file, a second application leaves the
repaired files (in particular the `index.html` content) unchanged,
because the second pass detects the already-present `.light-theme`
container, `.dark-theme` container and `#theme-toggle` control and
injects nothing. -/
theorem c8_theme_repair_idempotent (files : List ManifestFile)
    (_h : ∃ f ∈ files, lowerStr f.path = strOf "index.html") :
    theme_repair_files (theme_repair_files files) =
      theme_repair_files files :=
  theme_repair_files_idem files

/-- Concrete manifest file for the C8 witness. -/
def c8File : ManifestFile :=
  ⟨strOf "index.html", strOf "<body><p>x</p></body>", strOf "utf-8"⟩

theorem c8_theme_repair_idempotent_witness :
    (∃ f ∈ [c8File], lowerStr f.path = strOf "index.html") ∧
      theme_repair_files (theme_repair_files [c8File]) =
        theme_repair_files [c8File] :=
  ⟨by decide, c8_theme_repair_idempotent [c8File] (by decide)⟩

/-! ## JSON values and `json.loads`
(`app/llm_generator.py::_extract_json_from_text`)

The stdlib `json` module is external to the repository; it is modelled
by an executable JSON value type, a canonical serializer and a
recursive-descent parser.  The modelled fragment has integer numbers
(floats are not statable) and no `\uXXXX` escapes; within it the parser
accepts exactly the JSON grammar the serializer emits (plus whitespace
and the common escapes), and rejects malformed candidates the way
`json.loads` does. -/

mutual

/-- A JSON value (integer-number fragment). -/
inductive Jval : Type where
  | null : Jval
  | jbool (b : Bool) : Jval
  | num (n : Int) : Jval
  | str (s : Str) : Jval
  | arr (elems : Jlist) : Jval
  | obj (fields : Jfields) : Jval

/-- A list of JSON values. -/
inductive Jlist : Type where
  | nil : Jlist
  | cons (hd : Jval) (tl : Jlist) : Jlist

/-- The ordered fields of a JSON object. -/
inductive Jfields : Type where
  | nil : Jfields
  | fcons (key : Str) (val : Jval) (tl : Jfields) : Jfields

end

/-- Decimal digits of `n`, least significant first (`fuel ≥ n`). -/
def natDigitsRev : Nat → Nat → Str
  | 0, _ => []
  | fuel + 1, n =>
    if n = 0 then [] else Char.ofNat (48 + n % 10) :: natDigitsRev fuel (n / 10)

/-- Decimal rendering of a natural number. -/
def renderNat (n : Nat) : Str := if n = 0 then ['0'] else (natDigitsRev n n).reverse

/-- Decimal rendering of an integer. -/
def renderInt : Int → Str
  | Int.ofNat n => renderNat n
  | Int.negSucc n => '-' :: renderNat (n + 1)

/-- JSON string escaping (quote and backslash). -/
def escapeChars : Str → Str
  | [] => []
  | c :: rest =>
    if c == '"' then '\\' :: '"' :: escapeChars rest
    else if c == '\\' then '\\' :: '\\' :: escapeChars rest
    else c :: escapeChars rest

/-- A JSON string literal. -/
def renderString (s : Str) : Str := '"' :: escapeChars s ++ ['"']

mutual

/-- Canonical (compact) JSON serialization of a value. -/
def renderJ : Jval → Str
  | Jval.null => strOf "null"
  | Jval.jbool true => strOf "true"
  | Jval.jbool false => strOf "false"
  | Jval.num n => renderInt n
  | Jval.str s => renderString s
  | Jval.arr es => '[' :: renderElems es ++ [']']
  | Jval.obj fs => lbraceC :: renderFields fs ++ [rbraceC]

/-- Comma-separated serialization of array elements. -/
def renderElems : Jlist → Str
  | Jlist.nil => []
  | Jlist.cons h Jlist.nil => renderJ h
  | Jlist.cons h (Jlist.cons h2 t) =>
    renderJ h ++ ',' :: renderElems (Jlist.cons h2 t)

/-- Comma-separated serialization of object fields. -/
def renderFields : Jfields → Str
  | Jfields.nil => []
  | Jfields.fcons k v Jfields.nil => renderString k ++ ':' :: renderJ v
  | Jfields.fcons k v (Jfields.fcons k2 v2 t) =>
    renderString k ++ ':' :: renderJ v ++ ',' ::
      renderFields (Jfields.fcons k2 v2 t)

end

/-- JSON whitespace. -/
def isWsJ (c : Char) : Bool := c == ' ' || c == '\t' || c == '\n' || c == '\r'

/-- Skip leading JSON whitespace. -/
def skipWs : Str → Str
  | [] => []
  | c :: r => if isWsJ c then skipWs r else c :: r

/-- ASCII decimal digit test. -/
def isDigitC (c : Char) : Bool := 48 ≤ c.toNat && c.toNat ≤ 57

/-- Supported JSON string escapes (`\uXXXX` is outside the model). -/
def unescapeChar (e : Char) : Option Char :=
  if e == '"' then some '"'
  else if e == '\\' then some '\\'
  else if e == '/' then some '/'
  else if e == 'n' then some '\n'
  else if e == 't' then some '\t'
  else if e == 'r' then some '\r'
  else if e == 'b' then some (Char.ofNat 8)
  else if e == 'f' then some (Char.ofNat 12)
  else none

mutual

/-- Parse a JSON string body after the opening quote; returns the
unescaped content and the input following the closing quote. -/
def parseStringBody : Str → Option (Str × Str)
  | [] => none
  | c :: r =>
    if c == '"' then some ([], r)
    else if c == '\\' then parseEscape r
    else
      match parseStringBody r with
      | none => none
      | some (s, rest) => some (c :: s, rest)

/-- Parse the character after a backslash and the remaining body. -/
def parseEscape : Str → Option (Str × Str)
  | [] => none
  | e :: r2 =>
    match unescapeChar e, parseStringBody r2 with
    | some ch, some (s, rest) => some (ch :: s, rest)
    | _, _ => none

end

/-- Accumulate a digit run into a natural number. -/
def parseNatDigits (ds : Str) : Nat :=
  ds.foldl (fun a c => a * 10 + (c.toNat - 48)) 0

/-- Parse a non-empty digit run. -/
def parseNumAbs (s : Str) : Option (Nat × Str) :=
  let ds := s.takeWhile isDigitC
  if ds = [] then none else some (parseNatDigits ds, s.dropWhile isDigitC)

/-- Parse a JSON integer (optional minus sign, digit run). -/
def parseNumber (s : Str) : Option (Int × Str) :=
  match s with
  | [] => none
  | c :: r =>
    if c == '-' then
      match parseNumAbs r with
      | none => none
      | some (n, rest) => some (-(n : Int), rest)
    else
      match parseNumAbs (c :: r) with
      | none => none
      | some (n, rest) => some ((n : Int), rest)

mutual

/-- Fuelled recursive-descent parser for one JSON value. -/
def parseVal : Nat → Str → Option (Jval × Str)
  | 0, _ => none
  | fuel + 1, s =>
    match skipWs s with
    | [] => none
    | c :: r =>
      if c == 'n' then
        if isPre (strOf "ull") r then some (Jval.null, r.drop 3) else none
      else if c == 't' then
        if isPre (strOf "rue") r then some (Jval.jbool true, r.drop 3)
        else none
      else if c == 'f' then
        if isPre (strOf "alse") r then some (Jval.jbool false, r.drop 4)
        else none
      else if c == '"' then
        match parseStringBody r with
        | none => none
        | some (s', rest) => some (Jval.str s', rest)
      else if c == '[' then
        match skipWs r with
        | [] => none
        | d :: r2 =>
          if d == ']' then some (Jval.arr Jlist.nil, r2)
          else
            match parseElems fuel (d :: r2) with
            | none => none
            | some (es, rest) => some (Jval.arr es, rest)
      else if c == lbraceC then
        match skipWs r with
        | [] => none
        | d :: r2 =>
          if d == rbraceC then some (Jval.obj Jfields.nil, r2)
          else
            match parseFields fuel (d :: r2) with
            | none => none
            | some (fs, rest) => some (Jval.obj fs, rest)
      else if c == '-' || isDigitC c then
        match parseNumber (c :: r) with
        | none => none
        | some (n, rest) => some (Jval.num n, rest)
      else none

/-- Parse the elements of a non-empty array, consuming the closing `]`. -/
def parseElems : Nat → Str → Option (Jlist × Str)
  | 0, _ => none
  | fuel + 1, s =>
    match parseVal fuel s with
    | none => none
    | some (v, r) =>
      match skipWs r with
      | [] => none
      | d :: r2 =>
        if d == ',' then
          match parseElems fuel r2 with
          | none => none
          | some (es, rest) => some (Jlist.cons v es, rest)
        else if d == ']' then some (Jlist.cons v Jlist.nil, r2)
        else none

/-- Parse the fields of a non-empty object, consuming the closing brace. -/
def parseFields : Nat → Str → Option (Jfields × Str)
  | 0, _ => none
  | fuel + 1, s =>
    match skipWs s with
    | [] => none
    | c :: r =>
      if c == '"' then
        match parseStringBody r with
        | none => none
        | some (k, r2) =>
          match skipWs r2 with
          | [] => none
          | d :: r3 =>
            if d == ':' then
              match parseVal fuel r3 with
              | none => none
              | some (v, r4) =>
                match skipWs r4 with
                | [] => none
                | e :: r5 =>
                  if e == ',' then
                    match parseFields fuel r5 with
                    | none => none
                    | some (fs, rest) => some (Jfields.fcons k v fs, rest)
                  else if e == rbraceC then
                    some (Jfields.fcons k v Jfields.nil, r5)
                  else none
            else none
      else none

end

/-- Model of `json.loads`: parse one value, then require only
whitespace to remain (`Extra data` otherwise). -/
def json_loads (s : Str) : Option Jval :=
  match parseVal (s.length + 1) s with
  | none => none
  | some (v, rest) => if skipWs rest = [] then some v else none

/-! ## `_extract_json_from_text` -/

/-- Case-insensitive prefix test (for the `re.IGNORECASE` fence scan). -/
def ciPre (pat l : Str) : Bool := isPre (lowerStr pat) (lowerStr l)

/-- Fuelled scan of `re.sub(r"```(?:json|js|html)?", "", text)`:
at each triple backtick the alternation prefers `json`, then `js`,
then `html` (case-insensitively), then the bare fence. -/
def fenceStripGo : Nat → Str → Str
  | 0, l => l
  | _ + 1, [] => []
  | fuel + 1, c :: rest =>
    if isPre [btC, btC, btC] (c :: rest) then
      let r := (c :: rest).drop 3
      let r2 :=
        if ciPre (strOf "json") (r.take 4) && 4 ≤ r.length then r.drop 4
        else if ciPre (strOf "js") (r.take 2) && 2 ≤ r.length then r.drop 2
        else if ciPre (strOf "html") (r.take 4) && 4 ≤ r.length then r.drop 4
        else r
      fenceStripGo fuel r2
    else c :: fenceStripGo fuel rest

/-- The fence-marker removal pass. -/
def fenceStrip (l : Str) : Str := fenceStripGo (l.length + 1) l

/-- Python `str.strip()`. -/
def stripPy (l : Str) : Str :=
  (((l.dropWhile isPyWs).reverse).dropWhile isPyWs).reverse

/-- `,\s*}` → `}` (resp. `,\s*]` → `]`): one `re.sub` pass for the given
closing character, scanning left to right without overlap. -/
def subCommaCloseGo (close : Char) : Nat → Str → Str
  | 0, l => l
  | _ + 1, [] => []
  | fuel + 1, c :: rest =>
    if c == ',' then
      let ws := rest.takeWhile isPyWs
      match rest.drop ws.length with
      | d :: r2 =>
        if d == close then close :: subCommaCloseGo close fuel r2
        else c :: subCommaCloseGo close fuel rest
      | [] => c :: subCommaCloseGo close fuel rest
    else c :: subCommaCloseGo close fuel rest

/-- The "trailing comma" repair applied to a failed candidate:
`re.sub(r",\s*}", "}", ...)` then `re.sub(r",\s*]", "]", ...)`. -/
def fixTrailingCommas (l : Str) : Str :=
  let l1 := subCommaCloseGo rbraceC (l.length + 1) l
  subCommaCloseGo ']' (l1.length + 1) l1

/-- The brace-depth scan of `_extract_json_from_text` (lines 140-156):
walk from the first `{`, tracking depth across the raw text; whenever
depth returns to zero at a `}`, try `json.loads` on the candidate span
and then on its trailing-comma repair; on failure keep scanning. -/
def braceScanGo : Str → Str → Int → Option Jval
  | [], _, _ => none
  | c :: rest, accRev, depth =>
    if c == lbraceC then braceScanGo rest (c :: accRev) (depth + 1)
    else if c == rbraceC then
      let d' := depth - 1
      if d' = 0 then
        let candidate := (c :: accRev).reverse
        match json_loads candidate with
        | some v => some v
        | none =>
          match json_loads (fixTrailingCommas candidate) with
          | some v => some v
          | none => braceScanGo rest (c :: accRev) d'
      else braceScanGo rest (c :: accRev) d'
    else braceScanGo rest (c :: accRev) depth

/-- Longest prefix of `l` that ends with `}`, if any. -/
def lastRbracePrefix : Str → Option Str
  | [] => none
  | c :: rest =>
    match lastRbracePrefix rest with
    | some pre => some (c :: pre)
    | none => if c == rbraceC then some [c] else none

/-- The final `re.search(r"\{[\s\S]*\}", text)` fallback: the span from
the first `{` to the last `}` (strictly later), if such a span exists. -/
def regexSpanFallback (t : Str) : Option Jval :=
  match t.dropWhile (fun c => !(c == lbraceC)) with
  | [] => none
  | c :: rest =>
    match lastRbracePrefix rest with
    | none => none
    | some pre => json_loads (c :: pre)

/-- Embeds `app/llm_generator.py::_extract_json_from_text`. -/
def extract_json_from_text (text : Str) : Option Jval :=
  if text = [] then none
  else
    let t := stripPy (fenceStrip text)
    match t.dropWhile (fun c => !(c == lbraceC)) with
    | [] => none
    | c :: rest =>
      match braceScanGo (c :: rest) [] 0 with
      | some v => some v
      | none =>
        match json_loads t with
        | some v => some v
        | none => regexSpanFallback t

/-! ## Parser/serializer round trip -/

/-- Continuations a serialized value may be followed by inside a larger
serialized term: nothing, or a separator/closer. -/
def restOkB : Str → Bool
  | [] => true
  | c :: _ => c == ',' || c == ']' || c == rbraceC

theorem skipWs_cons_not_ws (c : Char) (l : Str) (h : isWsJ c = false) :
    skipWs (c :: l) = c :: l := by
  simp [skipWs, h]

theorem parseStringBody_render (s rest : Str) :
    parseStringBody (escapeChars s ++ '"' :: rest) = some (s, rest) := by
  induction s with
  | nil => simp [escapeChars, parseStringBody]
  | cons c t ih =>
    by_cases hq : c == '"'
    · have hc : c = '"' := by simpa using hq
      subst hc
      simp [escapeChars, parseStringBody, parseEscape, unescapeChar, ih]
    · by_cases hb : c == '\\'
      · have hc : c = '\\' := by simpa using hb
        subst hc
        simp [escapeChars, parseStringBody, parseEscape, unescapeChar, ih]
      · simp [escapeChars, hq, hb, parseStringBody, ih]

theorem natDigitsRev_digits (fuel n : Nat) :
    ∀ c ∈ natDigitsRev fuel n, isDigitC c = true := by
  induction fuel generalizing n with
  | zero => intro c hc; simp [natDigitsRev] at hc
  | succ f ih =>
    intro c hc
    by_cases hn : n = 0
    · simp [natDigitsRev, hn] at hc
    · simp only [natDigitsRev, if_neg hn, List.mem_cons] at hc
      rcases hc with hc | hc
      · subst hc
        have hm : n % 10 < 10 := Nat.mod_lt _ (by omega)
        interval_cases h : n % 10 <;> decide
      · exact ih (n / 10) c hc

theorem renderNat_digits (n : Nat) :
    ∀ c ∈ renderNat n, isDigitC c = true := by
  intro c hc
  unfold renderNat at hc
  by_cases hn : n = 0
  · simp [hn] at hc
    subst hc; decide
  · simp only [if_neg hn, List.mem_reverse] at hc
    exact natDigitsRev_digits n n c hc

theorem natDigitsRev_ne_nil (fuel n : Nat) (hf : 0 < fuel) (hn : 0 < n) :
    natDigitsRev fuel n ≠ [] := by
  cases fuel with
  | zero => omega
  | succ f =>
    simp [natDigitsRev, Nat.pos_iff_ne_zero.mp hn]

theorem renderNat_ne_nil (n : Nat) : renderNat n ≠ [] := by
  unfold renderNat
  by_cases hn : n = 0
  · simp [hn]
  · simp only [if_neg hn]
    intro h
    exact natDigitsRev_ne_nil n n (by omega) (by omega)
      (by simpa using congrArg List.reverse h)

theorem isDigitC_not_special (c : Char) (h : isDigitC c = true) :
    isWsJ c = false ∧ (c == 'n') = false ∧ (c == 't') = false ∧
      (c == 'f') = false ∧ (c == '"') = false ∧ (c == '[') = false ∧
      (c == lbraceC) = false ∧ (c == '-') = false ∧ (c == ']') = false ∧
      (c == rbraceC) = false ∧ (c == ',') = false := by
  have hn : 48 ≤ c.toNat ∧ c.toNat ≤ 57 := by
    simpa [isDigitC] using h
  have hne : ∀ d : Char, c.toNat ≠ d.toNat → (c == d) = false := by
    intro d hd
    have : c ≠ d := fun he => hd (congrArg Char.toNat he)
    simpa using this
  refine ⟨?_, ?_, ?_, ?_, ?_, ?_, ?_, ?_, ?_, ?_, ?_⟩
  · simp only [isWsJ, Bool.or_eq_false_iff]
    refine ⟨⟨⟨?_, ?_⟩, ?_⟩, ?_⟩ <;> (apply hne; simp; omega)
  all_goals (apply hne; simp [lbraceC, rbraceC]; omega)

theorem takeWhile_all_append (P : Char → Bool) (l r : Str)
    (hl : ∀ c ∈ l, P c = true)
    (hr : ∀ c cs, r = c :: cs → P c = false) :
    (l ++ r).takeWhile P = l ∧ (l ++ r).dropWhile P = r := by
  induction l with
  | nil =>
    cases r with
    | nil => simp
    | cons c cs =>
      have := hr c cs rfl
      simp [List.takeWhile, List.dropWhile, this]
  | cons c t ih =>
    have hc := hl c (by simp)
    have ht := ih (fun x hx => hl x (by simp [hx]))
    simp [List.takeWhile, List.dropWhile, hc, ht.1, ht.2]

theorem parseNatDigits_renderNat (n : Nat) :
    parseNatDigits (renderNat n) = n := by
  unfold renderNat
  by_cases hn : n = 0
  · simp [hn, parseNatDigits]
  · simp only [if_neg hn]
    have key : ∀ (fuel m : Nat), m ≤ fuel →
        List.foldr (fun c acc => acc * 10 + (c.toNat - 48)) 0
          (natDigitsRev fuel m) = m := by
      intro fuel
      induction fuel with
      | zero => intro m hm; interval_cases m; simp [natDigitsRev]
      | succ f ih =>
        intro m hm
        by_cases hm0 : m = 0
        · simp [natDigitsRev, hm0]
        · simp only [natDigitsRev, if_neg hm0, List.foldr_cons]
          rw [ih (m / 10) (by omega)]
          have h10 : m % 10 < 10 := Nat.mod_lt _ (by omega)
          have : (Char.ofNat (48 + m % 10)).toNat - 48 = m % 10 := by
            interval_cases h : m % 10 <;> decide
          rw [this]
          omega
    unfold parseNatDigits
    rw [List.foldl_reverse]
    exact key n n (le_refl n)

theorem parseNumAbs_render (n : Nat) (rest : Str)
    (hr : ∀ c cs, rest = c :: cs → isDigitC c = false) :
    parseNumAbs (renderNat n ++ rest) = some (n, rest) := by
  obtain ⟨ht, hd⟩ := takeWhile_all_append isDigitC (renderNat n) rest
    (renderNat_digits n) hr
  unfold parseNumAbs
  rw [ht, hd]
  simp [renderNat_ne_nil n, parseNatDigits_renderNat n]

theorem restOk_head_not_digit (rest : Str) (hr : restOkB rest = true) :
    ∀ c cs, rest = c :: cs → isDigitC c = false := by
  intro c cs he
  subst he
  simp only [restOkB, Bool.or_eq_true, beq_iff_eq] at hr
  rcases hr with (h | h) | h <;> subst h <;> decide

theorem parseNumber_render (n : Int) (rest : Str)
    (hr : restOkB rest = true) :
    parseNumber (renderInt n ++ rest) = some (n, rest) := by
  have hrd := restOk_head_not_digit rest hr
  cases n with
  | ofNat m =>
    obtain ⟨c, cs, hcc⟩ : ∃ c cs, renderNat m = c :: cs := by
      cases h : renderNat m with
      | nil => exact absurd h (renderNat_ne_nil m)
      | cons c cs => exact ⟨c, cs, rfl⟩
    have hdig : isDigitC c = true := by
      apply renderNat_digits m
      simp [hcc]
    obtain ⟨_, _, _, _, _, _, _, hminus, _, _, _⟩ := isDigitC_not_special c hdig
    have habs := parseNumAbs_render m rest hrd
    rw [hcc] at habs
    simp only [renderInt, hcc, List.cons_append, parseNumber, hminus]
    rw [show c :: (cs ++ rest) = (c :: cs) ++ rest from rfl, habs]
    simp
  | negSucc m =>
    have habs := parseNumAbs_render (m + 1) rest hrd
    simp only [renderInt, List.cons_append, parseNumber]
    rw [show (('-' : Char) == '-') = true from rfl, if_pos rfl, habs]
    simp [Int.negSucc_eq]

mutual

/-- Fuel needed by `parseVal` on the rendering of a value. -/
def needV : Jval → Nat
  | Jval.null | Jval.jbool _ | Jval.num _ | Jval.str _ => 1
  | Jval.arr Jlist.nil => 1
  | Jval.arr (Jlist.cons h t) => 1 + needL (Jlist.cons h t)
  | Jval.obj Jfields.nil => 1
  | Jval.obj (Jfields.fcons k v t) => 1 + needF (Jfields.fcons k v t)

/-- Fuel needed by `parseElems` on rendered array elements. -/
def needL : Jlist → Nat
  | Jlist.nil => 0
  | Jlist.cons h t => 1 + needV h + needL t

/-- Fuel needed by `parseFields` on rendered object fields. -/
def needF : Jfields → Nat
  | Jfields.nil => 0
  | Jfields.fcons _ v t => 1 + needV v + needF t

end

theorem renderJ_head (J : Jval) :
    ∃ c cs, renderJ J = c :: cs ∧ isWsJ c = false ∧ (c == ']') = false := by
  cases J with
  | null => exact ⟨'n', ['u', 'l', 'l'], rfl, by decide, by decide⟩
  | jbool b =>
    cases b with
    | true => exact ⟨'t', ['r', 'u', 'e'], rfl, by decide, by decide⟩
    | false => exact ⟨'f', ['a', 'l', 's', 'e'], rfl, by decide, by decide⟩
  | num n =>
    cases n with
    | ofNat m =>
      obtain ⟨c, cs, hcc⟩ : ∃ c cs, renderNat m = c :: cs := by
        cases h : renderNat m with
        | nil => exact absurd h (renderNat_ne_nil m)
        | cons c cs => exact ⟨c, cs, rfl⟩
      have hdig : isDigitC c = true := renderNat_digits m c (by simp [hcc])
      obtain ⟨hws, _, _, _, _, _, _, _, hbr, _, _⟩ := isDigitC_not_special c hdig
      exact ⟨c, cs, by simp [renderJ, renderInt, hcc], hws, hbr⟩
    | negSucc m =>
      exact ⟨'-', renderNat (m + 1), by simp [renderJ, renderInt],
        by decide, by decide⟩
  | str s =>
    exact ⟨'"', escapeChars s ++ ['"'], by simp [renderJ, renderString],
      by decide, by decide⟩
  | arr es =>
    exact ⟨'[', renderElems es ++ [']'], by simp [renderJ], by decide,
      by decide⟩
  | obj fs =>
    exact ⟨lbraceC, renderFields fs ++ [rbraceC], by simp [renderJ],
      by decide, by decide⟩

theorem renderElems_head (h : Jval) (t : Jlist) :
    ∃ c cs, renderElems (Jlist.cons h t) = c :: cs ∧ isWsJ c = false ∧
      (c == ']') = false := by
  obtain ⟨c, cs, hcc, hws, hbr⟩ := renderJ_head h
  cases t with
  | nil => exact ⟨c, cs, by simp [renderElems, hcc], hws, hbr⟩
  | cons h2 t2 =>
    exact ⟨c, cs ++ ',' :: renderElems (Jlist.cons h2 t2),
      by simp [renderElems, hcc], hws, hbr⟩

theorem renderFields_head (key : Str) (v : Jval) (t : Jfields) :
    ∃ cs, renderFields (Jfields.fcons key v t) = '"' :: cs := by
  cases t with
  | nil =>
    exact ⟨escapeChars key ++ '"' :: ':' :: renderJ v,
      by simp [renderFields, renderString, List.append_assoc]⟩
  | fcons k2 v2 t2 =>
    exact ⟨escapeChars key ++ '"' :: ':' :: (renderJ v ++ ',' ::
        renderFields (Jfields.fcons k2 v2 t2)),
      by simp [renderFields, renderString, List.append_assoc]⟩

mutual

theorem parseVal_render : ∀ (J : Jval) (rest : Str) (sl : Nat),
    restOkB rest = true →
    parseVal (needV J + sl) (renderJ J ++ rest) = some (J, rest)
  | Jval.null, rest, sl, _ => by
    rw [show needV Jval.null + sl = sl + 1 by simp [needV]; omega]
    rw [show renderJ Jval.null ++ rest = 'n' :: ('u' :: 'l' :: 'l' :: rest)
      from rfl]
    simp only [parseVal]
    rw [skipWs_cons_not_ws _ _ (by decide)]
    have hp : isPre ['u', 'l', 'l'] ('u' :: 'l' :: 'l' :: rest) = true :=
      isPre_refl_append ['u', 'l', 'l'] rest
    simp [hp, strOf]
  | Jval.jbool true, rest, sl, _ => by
    rw [show needV (Jval.jbool true) + sl = sl + 1 by simp [needV]; omega]
    rw [show renderJ (Jval.jbool true) ++ rest =
      't' :: ('r' :: 'u' :: 'e' :: rest) from rfl]
    simp only [parseVal]
    rw [skipWs_cons_not_ws _ _ (by decide)]
    have hp : isPre ['r', 'u', 'e'] ('r' :: 'u' :: 'e' :: rest) = true :=
      isPre_refl_append ['r', 'u', 'e'] rest
    simp [hp, strOf]
  | Jval.jbool false, rest, sl, _ => by
    rw [show needV (Jval.jbool false) + sl = sl + 1 by simp [needV]; omega]
    rw [show renderJ (Jval.jbool false) ++ rest =
      'f' :: ('a' :: 'l' :: 's' :: 'e' :: rest) from rfl]
    simp only [parseVal]
    rw [skipWs_cons_not_ws _ _ (by decide)]
    have hp : isPre ['a', 'l', 's', 'e'] ('a' :: 'l' :: 's' :: 'e' :: rest) =
        true := isPre_refl_append ['a', 'l', 's', 'e'] rest
    simp [hp, strOf]
  | Jval.num n, rest, sl, hr => by
    rw [show needV (Jval.num n) + sl = sl + 1 by simp [needV]; omega]
    have hnum := parseNumber_render n rest hr
    cases n with
    | ofNat m =>
      obtain ⟨c, cs, hcc⟩ : ∃ c cs, renderNat m = c :: cs := by
        cases h : renderNat m with
        | nil => exact absurd h (renderNat_ne_nil m)
        | cons c cs => exact ⟨c, cs, rfl⟩
      have hdig : isDigitC c = true := renderNat_digits m c (by simp [hcc])
      obtain ⟨hws, hn, ht, hf, hq, hlb, hcb, hm, _, _, _⟩ :=
        isDigitC_not_special c hdig
      rw [show renderInt (Int.ofNat m) = renderNat m from rfl, hcc] at hnum
      rw [show renderJ (Jval.num (Int.ofNat m)) = renderNat m from rfl, hcc]
      rw [List.cons_append]
      simp only [parseVal]
      rw [skipWs_cons_not_ws _ _ hws]
      simp only [hn, ht, hf, hq, hlb, hcb, hm, hdig, Bool.false_eq_true,
        if_false, Bool.or_true, if_true]
      rw [← List.cons_append, hnum]
    | negSucc m =>
      rw [show renderInt (Int.negSucc m) = '-' :: renderNat (m + 1)
        from rfl] at hnum
      rw [show renderJ (Jval.num (Int.negSucc m)) =
        '-' :: renderNat (m + 1) from rfl]
      rw [List.cons_append]
      simp only [parseVal]
      rw [skipWs_cons_not_ws _ _ (by decide)]
      simp only [show (('-' : Char) == 'n') = false from rfl,
        show (('-' : Char) == 't') = false from rfl,
        show (('-' : Char) == 'f') = false from rfl,
        show (('-' : Char) == '"') = false from rfl,
        show (('-' : Char) == '[') = false from rfl,
        show (('-' : Char) == lbraceC) = false from rfl,
        show (('-' : Char) == '-') = true from rfl,
        Bool.false_eq_true, if_false, Bool.true_or, if_true]
      rw [← List.cons_append, hnum]
  | Jval.str s, rest, sl, _ => by
    rw [show needV (Jval.str s) + sl = sl + 1 by simp [needV]; omega]
    rw [show renderJ (Jval.str s) ++ rest =
      '"' :: (escapeChars s ++ '"' :: rest) by
        simp [renderJ, renderString]]
    simp only [parseVal]
    rw [skipWs_cons_not_ws _ _ (by decide)]
    simp [parseStringBody_render]
  | Jval.arr Jlist.nil, rest, sl, _ => by
    rw [show needV (Jval.arr Jlist.nil) + sl = sl + 1 by simp [needV]; omega]
    rw [show renderJ (Jval.arr Jlist.nil) ++ rest = '[' :: (']' :: rest)
      from rfl]
    simp only [parseVal]
    simp [skipWs, isWsJ]
  | Jval.arr (Jlist.cons h t), rest, sl, _ => by
    rw [show needV (Jval.arr (Jlist.cons h t)) + sl =
      (needL (Jlist.cons h t) + sl) + 1 by simp [needV]; omega]
    rw [show renderJ (Jval.arr (Jlist.cons h t)) ++ rest =
      '[' :: (renderElems (Jlist.cons h t) ++ ']' :: rest) by
        simp [renderJ, List.append_assoc]]
    simp only [parseVal]
    rw [skipWs_cons_not_ws _ _ (by decide)]
    obtain ⟨c, cs, hcc, hws, hbr⟩ := renderElems_head h t
    rw [show renderElems (Jlist.cons h t) ++ ']' :: rest =
      c :: (cs ++ ']' :: rest) by rw [hcc]; simp]
    simp only [show (('[' : Char) == 'n') = false from rfl,
      show (('[' : Char) == 't') = false from rfl,
      show (('[' : Char) == 'f') = false from rfl,
      show (('[' : Char) == '"') = false from rfl,
      show (('[' : Char) == '[') = true from rfl,
      Bool.false_eq_true, if_false, if_true]
    rw [skipWs_cons_not_ws _ _ hws]
    simp only [hbr, Bool.false_eq_true, if_false]
    rw [show c :: (cs ++ ']' :: rest) =
      renderElems (Jlist.cons h t) ++ ']' :: rest by rw [hcc]; simp]
    rw [parseElems_render (Jlist.cons h t) rest sl (by simp)]
  | Jval.obj Jfields.nil, rest, sl, _ => by
    rw [show needV (Jval.obj Jfields.nil) + sl = sl + 1 by simp [needV]; omega]
    rw [show renderJ (Jval.obj Jfields.nil) ++ rest =
      lbraceC :: (rbraceC :: rest) from rfl]
    simp only [parseVal]
    simp [skipWs, isWsJ, lbraceC, rbraceC]
  | Jval.obj (Jfields.fcons key v t), rest, sl, _ => by
    rw [show needV (Jval.obj (Jfields.fcons key v t)) + sl =
      (needF (Jfields.fcons key v t) + sl) + 1 by simp [needF, needV]; omega]
    rw [show renderJ (Jval.obj (Jfields.fcons key v t)) ++ rest =
      lbraceC :: (renderFields (Jfields.fcons key v t) ++ rbraceC :: rest) by
        simp [renderJ, List.append_assoc]]
    simp only [parseVal]
    rw [skipWs_cons_not_ws _ _ (by decide)]
    obtain ⟨cs, hcc⟩ := renderFields_head key v t
    rw [show renderFields (Jfields.fcons key v t) ++ rbraceC :: rest =
      '"' :: (cs ++ rbraceC :: rest) by rw [hcc]; simp]
    simp only [show (lbraceC == 'n') = false from rfl,
      show (lbraceC == 't') = false from rfl,
      show (lbraceC == 'f') = false from rfl,
      show (lbraceC == '"') = false from rfl,
      show (lbraceC == '[') = false from rfl,
      show (lbraceC == lbraceC) = true from rfl,
      Bool.false_eq_true, if_false, if_true]
    rw [skipWs_cons_not_ws _ _ (by decide)]
    simp only [show (('"' : Char) == rbraceC) = false from rfl,
      Bool.false_eq_true, if_false]
    rw [show '"' :: (cs ++ rbraceC :: rest) =
      renderFields (Jfields.fcons key v t) ++ rbraceC :: rest by
        rw [hcc]; simp]
    rw [parseFields_render (Jfields.fcons key v t) rest sl (by simp)]

theorem parseElems_render : ∀ (es : Jlist) (rest : Str) (sl : Nat),
    es ≠ Jlist.nil →
    parseElems (needL es + sl) (renderElems es ++ ']' :: rest) =
      some (es, rest)
  | Jlist.nil, _, _, hne => absurd rfl hne
  | Jlist.cons h Jlist.nil, rest, sl, _ => by
    rw [show needL (Jlist.cons h Jlist.nil) + sl = (needV h + sl) + 1 by
      simp [needL]; omega]
    rw [show renderElems (Jlist.cons h Jlist.nil) = renderJ h from rfl]
    simp only [parseElems]
    rw [parseVal_render h (']' :: rest) sl rfl]
    simp only []
    rw [skipWs_cons_not_ws _ _ (by decide)]
    simp
  | Jlist.cons h (Jlist.cons h2 t2), rest, sl, _ => by
    rw [show needL (Jlist.cons h (Jlist.cons h2 t2)) + sl =
      (needV h + (needL (Jlist.cons h2 t2) + sl)) + 1 by simp [needL]; omega]
    rw [show renderElems (Jlist.cons h (Jlist.cons h2 t2)) ++ ']' :: rest =
      renderJ h ++ (',' :: (renderElems (Jlist.cons h2 t2) ++ ']' :: rest)) by
        simp [renderElems, List.append_assoc]]
    simp only [parseElems]
    rw [parseVal_render h
      (',' :: (renderElems (Jlist.cons h2 t2) ++ ']' :: rest))
      (needL (Jlist.cons h2 t2) + sl) rfl]
    simp only []
    rw [skipWs_cons_not_ws _ _ (by decide)]
    simp only [show ((',' : Char) == ',') = true from rfl, if_true]
    rw [show needV h + (needL (Jlist.cons h2 t2) + sl) =
      needL (Jlist.cons h2 t2) + (needV h + sl) by omega]
    rw [parseElems_render (Jlist.cons h2 t2) rest (needV h + sl) (by simp)]

theorem parseFields_render : ∀ (fs : Jfields) (rest : Str) (sl : Nat),
    fs ≠ Jfields.nil →
    parseFields (needF fs + sl) (renderFields fs ++ rbraceC :: rest) =
      some (fs, rest)
  | Jfields.nil, _, _, hne => absurd rfl hne
  | Jfields.fcons key v Jfields.nil, rest, sl, _ => by
    rw [show needF (Jfields.fcons key v Jfields.nil) + sl =
      (needV v + sl) + 1 by simp [needF]; omega]
    rw [show renderFields (Jfields.fcons key v Jfields.nil) ++
        rbraceC :: rest =
      '"' :: (escapeChars key ++ '"' ::
        (':' :: (renderJ v ++ rbraceC :: rest))) by
        simp [renderFields, renderString, List.append_assoc]]
    simp only [parseFields]
    rw [skipWs_cons_not_ws _ _ (by decide)]
    simp only [show (('"' : Char) == '"') = true from rfl, if_true]
    rw [parseStringBody_render key]
    simp only []
    rw [skipWs_cons_not_ws _ _ (by decide)]
    simp only [show ((':' : Char) == '"') = false from rfl,
      show ((':' : Char) == ':') = true from rfl,
      Bool.false_eq_true, if_false, if_true]
    rw [parseVal_render v (rbraceC :: rest) sl rfl]
    simp only []
    rw [skipWs_cons_not_ws _ _ (by decide)]
    simp [rbraceC]
  | Jfields.fcons key v (Jfields.fcons k2 v2 t2), rest, sl, _ => by
    rw [show needF (Jfields.fcons key v (Jfields.fcons k2 v2 t2)) + sl =
      (needV v + (needF (Jfields.fcons k2 v2 t2) + sl)) + 1 by
        simp [needF]; omega]
    rw [show renderFields (Jfields.fcons key v (Jfields.fcons k2 v2 t2)) ++
        rbraceC :: rest =
      '"' :: (escapeChars key ++ '"' :: (':' :: (renderJ v ++ ',' ::
        (renderFields (Jfields.fcons k2 v2 t2) ++ rbraceC :: rest)))) by
        simp [renderFields, renderString, List.append_assoc]]
    simp only [parseFields]
    rw [skipWs_cons_not_ws _ _ (by decide)]
    simp only [show (('"' : Char) == '"') = true from rfl, if_true]
    rw [parseStringBody_render key]
    simp only []
    rw [skipWs_cons_not_ws _ _ (by decide)]
    simp only [show ((':' : Char) == '"') = false from rfl,
      show ((':' : Char) == ':') = true from rfl,
      Bool.false_eq_true, if_false, if_true]
    rw [parseVal_render v
      (',' :: (renderFields (Jfields.fcons k2 v2 t2) ++ rbraceC :: rest))
      (needF (Jfields.fcons k2 v2 t2) + sl) rfl]
    simp only []
    rw [skipWs_cons_not_ws _ _ (by decide)]
    simp only [show ((',' : Char) == ',') = true from rfl, if_true]
    rw [show needV v + (needF (Jfields.fcons k2 v2 t2) + sl) =
      needF (Jfields.fcons k2 v2 t2) + (needV v + sl) by omega]
    rw [parseFields_render (Jfields.fcons k2 v2 t2) rest (needV v + sl)
      (by simp)]

end

mutual

theorem needV_le_render : ∀ (J : Jval), needV J ≤ (renderJ J).length
  | Jval.null => by simp [needV, renderJ, strOf]
  | Jval.jbool b => by cases b <;> simp [needV, renderJ, strOf]
  | Jval.num n => by
    have h1 : 1 ≤ (renderInt n).length := by
      cases n with
      | ofNat m =>
        have := List.length_pos.mpr (renderNat_ne_nil m)
        simpa [renderInt] using this
      | negSucc m => simp [renderInt]
    simpa [needV, renderJ] using h1
  | Jval.str s => by
    simp [needV, renderJ, renderString]
  | Jval.arr Jlist.nil => by simp [needV, renderJ, renderElems]
  | Jval.arr (Jlist.cons h t) => by
    have hl := needL_le_render (Jlist.cons h t)
    simp only [needV, renderJ, List.length_cons, List.length_append,
      List.length_singleton]
    omega
  | Jval.obj Jfields.nil => by simp [needV, renderJ, renderFields]
  | Jval.obj (Jfields.fcons k v t) => by
    have hf := needF_le_render (Jfields.fcons k v t)
    simp only [needV, renderJ, List.length_cons, List.length_append,
      List.length_singleton]
    omega

theorem needL_le_render : ∀ (es : Jlist),
    needL es ≤ (renderElems es).length + 1
  | Jlist.nil => by simp [needL, renderElems]
  | Jlist.cons h Jlist.nil => by
    have hv := needV_le_render h
    simp only [needL, needL.eq_1, renderElems]
    omega
  | Jlist.cons h (Jlist.cons h2 t2) => by
    have hv := needV_le_render h
    have hl := needL_le_render (Jlist.cons h2 t2)
    rw [show needL (Jlist.cons h (Jlist.cons h2 t2)) =
      1 + needV h + needL (Jlist.cons h2 t2) from rfl]
    rw [show renderElems (Jlist.cons h (Jlist.cons h2 t2)) =
      renderJ h ++ ',' :: renderElems (Jlist.cons h2 t2) from rfl]
    simp only [List.length_append, List.length_cons]
    omega

theorem needF_le_render : ∀ (fs : Jfields),
    needF fs ≤ (renderFields fs).length + 1
  | Jfields.nil => by simp [needF, renderFields]
  | Jfields.fcons k v Jfields.nil => by
    have hv := needV_le_render v
    simp only [needF, needF.eq_1, renderFields, List.length_append,
      List.length_cons]
    omega
  | Jfields.fcons k v (Jfields.fcons k2 v2 t2) => by
    have hv := needV_le_render v
    have hf := needF_le_render (Jfields.fcons k2 v2 t2)
    rw [show needF (Jfields.fcons k v (Jfields.fcons k2 v2 t2)) =
      1 + needV v + needF (Jfields.fcons k2 v2 t2) from rfl]
    rw [show renderFields (Jfields.fcons k v (Jfields.fcons k2 v2 t2)) =
      renderString k ++ ':' :: renderJ v ++ ',' ::
        renderFields (Jfields.fcons k2 v2 t2) from rfl]
    simp only [List.length_append, List.length_cons]
    omega

end

/-- `json.loads` recovers any value of the modelled fragment from its
canonical serialization. -/
theorem json_loads_render (J : Jval) : json_loads (renderJ J) = some J := by
  unfold json_loads
  have hle : needV J ≤ (renderJ J).length := needV_le_render J
  obtain ⟨k, hk⟩ : ∃ k, (renderJ J).length + 1 = needV J + k :=
    ⟨(renderJ J).length + 1 - needV J, by omega⟩
  rw [hk]
  have hp := parseVal_render J [] k rfl
  rw [show renderJ J ++ [] = renderJ J by simp] at hp
  rw [hp]
  simp [skipWs]

/-! ## The brace-depth scan on serialized objects -/

theorem bandL {a b : Bool} (h : (a && b) = true) : a = true := by
  cases a <;> simp_all

theorem bandR {a b : Bool} (h : (a && b) = true) : b = true := by
  cases a <;> simp_all

/-- Characters transparent to the fence scan and brace scan. -/
def okChar (c : Char) : Bool :=
  !(c == lbraceC) && !(c == rbraceC) && !(c == btC)

/-- All characters of a string are transparent. -/
def noBraceBt (s : Str) : Bool := s.all okChar

mutual

/-- Strings inside the value contain no braces or backticks. -/
def cleanV : Jval → Bool
  | Jval.null | Jval.jbool _ | Jval.num _ => true
  | Jval.str s => noBraceBt s
  | Jval.arr es => cleanL es
  | Jval.obj fs => cleanF fs

/-- `cleanV` over a list. -/
def cleanL : Jlist → Bool
  | Jlist.nil => true
  | Jlist.cons h t => cleanV h && cleanL t

/-- `cleanV` over fields (keys included). -/
def cleanF : Jfields → Bool
  | Jfields.nil => true
  | Jfields.fcons k v t => noBraceBt k && cleanV v && cleanF t

end

/-- Reverse `l` onto `acc` (the accumulation order of `braceScanGo`). -/
def revOnto : Str → Str → Str
  | [], acc => acc
  | c :: t, acc => revOnto t (c :: acc)

theorem revOnto_eq : ∀ (l acc : Str), revOnto l acc = l.reverse ++ acc := by
  intro l
  induction l with
  | nil => intro acc; simp [revOnto]
  | cons c t ih =>
    intro acc
    simp [revOnto, ih, List.append_assoc]

/-- Scan step on an opening brace: depth increases. -/
theorem braceScanGo_lbrace (rest acc : Str) (d : Int) :
    braceScanGo (lbraceC :: rest) acc d =
      braceScanGo rest (lbraceC :: acc) (d + 1) := by
  simp [braceScanGo]

/-- Scan step on a closing brace that does not return the depth to zero. -/
theorem braceScanGo_rbrace_nofire (rest acc : Str) (d : Int)
    (hd0 : ¬(d - 1 = 0)) :
    braceScanGo (rbraceC :: rest) acc d =
      braceScanGo rest (rbraceC :: acc) (d - 1) := by
  simp only [braceScanGo]
  rw [show (rbraceC == lbraceC) = false from rfl,
    show (rbraceC == rbraceC) = true from rfl]
  simp [hd0]

/-- Scan step on a closing brace that returns the depth to zero: the
candidate span is tried. -/
theorem braceScanGo_rbrace_fire (rest acc : Str) (d : Int)
    (hd0 : d - 1 = 0) :
    braceScanGo (rbraceC :: rest) acc d =
      (match json_loads (rbraceC :: acc).reverse with
       | some v => some v
       | none =>
         match json_loads (fixTrailingCommas (rbraceC :: acc).reverse) with
         | some v => some v
         | none => braceScanGo rest (rbraceC :: acc) (d - 1)) := by
  simp only [braceScanGo]
  rw [show (rbraceC == lbraceC) = false from rfl,
    show (rbraceC == rbraceC) = true from rfl]
  simp [hd0]

/-- A character without braces passes through the scan unchanged. -/
theorem braceScanGo_plain_cons (c : Char) (hlb : (c == lbraceC) = false)
    (hrb : (c == rbraceC) = false) (rest acc : Str) (d : Int) :
    braceScanGo (c :: rest) acc d = braceScanGo rest (c :: acc) d := by
  simp [braceScanGo, hlb, hrb]

theorem braceScanGo_plain_append :
    ∀ (l : Str), (∀ c ∈ l, (c == lbraceC) = false ∧ (c == rbraceC) = false) →
    ∀ (rest acc : Str) (d : Int),
      braceScanGo (l ++ rest) acc d = braceScanGo rest (revOnto l acc) d := by
  intro l
  induction l with
  | nil => intro _ rest acc d; simp [revOnto]
  | cons c t ih =>
    intro h rest acc d
    obtain ⟨hlb, hrb⟩ := h c (by simp)
    rw [List.cons_append, braceScanGo_plain_cons c hlb hrb]
    exact ih (fun x hx => h x (by simp [hx])) rest (c :: acc) d

theorem renderInt_plain (n : Int) :
    ∀ c ∈ renderInt n, (c == lbraceC) = false ∧ (c == rbraceC) = false := by
  intro c hc
  have hdig : isDigitC c = true ∨ c = '-' := by
    cases n with
    | ofNat m =>
      exact Or.inl (renderNat_digits m c (by simpa [renderInt] using hc))
    | negSucc m =>
      simp only [renderInt, List.mem_cons] at hc
      rcases hc with hc | hc
      · exact Or.inr hc
      · exact Or.inl (renderNat_digits (m + 1) c hc)
  rcases hdig with h | h
  · obtain ⟨_, _, _, _, _, _, hlb, _, _, hrb, _⟩ := isDigitC_not_special c h
    exact ⟨hlb, hrb⟩
  · subst h
    exact ⟨by decide, by decide⟩

theorem escapeChars_plain (s : Str) (hs : noBraceBt s = true) :
    ∀ c ∈ escapeChars s, (c == lbraceC) = false ∧ (c == rbraceC) = false := by
  induction s with
  | nil => intro c hc; simp [escapeChars] at hc
  | cons a t ih =>
    have ha : okChar a = true := by
      have := List.all_eq_true.mp hs a (by simp)
      exact this
    have ht : noBraceBt t = true := by
      apply List.all_eq_true.mpr
      intro x hx
      exact List.all_eq_true.mp hs x (by simp [hx])
    have ha' : (a == lbraceC) = false ∧ (a == rbraceC) = false := by
      simp only [okChar, Bool.and_eq_true, Bool.not_eq_true'] at ha
      exact ⟨ha.1.1, ha.1.2⟩
    intro c hc
    unfold escapeChars at hc
    by_cases hq : a == '"'
    · simp only [hq, if_true, List.mem_cons] at hc
      rcases hc with hc | hc | hc
      · subst hc; exact ⟨by decide, by decide⟩
      · subst hc; exact ⟨by decide, by decide⟩
      · exact ih ht c hc
    · by_cases hb : a == '\\'
      · simp only [hq, hb, Bool.false_eq_true, if_false, if_true,
          List.mem_cons] at hc
        rcases hc with hc | hc | hc
        · subst hc; exact ⟨by decide, by decide⟩
        · subst hc; exact ⟨by decide, by decide⟩
        · exact ih ht c hc
      · simp only [hq, hb, Bool.false_eq_true, if_false,
          List.mem_cons] at hc
        rcases hc with hc | hc
        · subst hc; exact ha'
        · exact ih ht c hc

theorem renderString_plain (s : Str) (hs : noBraceBt s = true) :
    ∀ c ∈ renderString s,
      (c == lbraceC) = false ∧ (c == rbraceC) = false := by
  intro c hc
  rw [renderString] at hc
  rcases List.mem_cons.mp hc with h | h
  · subst h; exact ⟨by decide, by decide⟩
  · rcases List.mem_append.mp h with h2 | h2
    · exact escapeChars_plain s hs c h2
    · have h3 : c = '"' := by simpa using h2
      subst h3; exact ⟨by decide, by decide⟩

mutual

theorem scanV : ∀ (J : Jval), cleanV J = true →
    ∀ (rest acc : Str) (d : Int), 1 ≤ d →
    braceScanGo (renderJ J ++ rest) acc d =
      braceScanGo rest (revOnto (renderJ J) acc) d
  | Jval.null, _, rest, acc, d, _ =>
    braceScanGo_plain_append (renderJ Jval.null) (by decide) rest acc d
  | Jval.jbool true, _, rest, acc, d, _ =>
    braceScanGo_plain_append (renderJ (Jval.jbool true)) (by decide)
      rest acc d
  | Jval.jbool false, _, rest, acc, d, _ =>
    braceScanGo_plain_append (renderJ (Jval.jbool false)) (by decide)
      rest acc d
  | Jval.num n, _, rest, acc, d, _ =>
    braceScanGo_plain_append (renderJ (Jval.num n)) (renderInt_plain n)
      rest acc d
  | Jval.str s, hc, rest, acc, d, _ =>
    braceScanGo_plain_append (renderJ (Jval.str s))
      (renderString_plain s (by simpa [cleanV] using hc)) rest acc d
  | Jval.arr Jlist.nil, _, rest, acc, d, _ =>
    braceScanGo_plain_append (renderJ (Jval.arr Jlist.nil)) (by decide)
      rest acc d
  | Jval.arr (Jlist.cons h t), hc, rest, acc, d, hd => by
    rw [show renderJ (Jval.arr (Jlist.cons h t)) ++ rest =
      '[' :: (renderElems (Jlist.cons h t) ++ (']' :: rest)) by
        simp [renderJ, List.append_assoc]]
    rw [braceScanGo_plain_cons '[' (by decide) (by decide)]
    rw [scanL (Jlist.cons h t) (by simpa [cleanV] using hc) _ _ d hd]
    rw [braceScanGo_plain_cons ']' (by decide) (by decide)]
    congr 1
    simp [revOnto_eq, renderJ, List.append_assoc]
  | Jval.obj Jfields.nil, _, rest, acc, d, hd => by
    rw [show renderJ (Jval.obj Jfields.nil) ++ rest =
      lbraceC :: (rbraceC :: rest) from rfl]
    rw [braceScanGo_lbrace]
    rw [braceScanGo_rbrace_nofire _ _ _ (by omega : ¬((d + 1) - 1 = 0))]
    rw [show (d : Int) + 1 - 1 = d by omega]
    simp [revOnto, renderJ, renderFields]
  | Jval.obj (Jfields.fcons k v t), hc, rest, acc, d, hd => by
    rw [show renderJ (Jval.obj (Jfields.fcons k v t)) ++ rest =
      lbraceC :: (renderFields (Jfields.fcons k v t) ++ (rbraceC :: rest)) by
        simp [renderJ, List.append_assoc]]
    rw [show braceScanGo
        (lbraceC :: (renderFields (Jfields.fcons k v t) ++ (rbraceC :: rest)))
        acc d =
      braceScanGo (renderFields (Jfields.fcons k v t) ++ (rbraceC :: rest))
        (lbraceC :: acc) (d + 1) by simp [braceScanGo]]
    rw [scanF (Jfields.fcons k v t) (by simpa [cleanV] using hc) _ _ (d + 1)
      (by omega)]
    rw [braceScanGo_rbrace_nofire _ _ _ (by omega : ¬((d + 1) - 1 = 0))]
    rw [show (d : Int) + 1 - 1 = d by omega]
    congr 1
    simp [revOnto_eq, renderJ, List.append_assoc]

theorem scanL : ∀ (es : Jlist), cleanL es = true →
    ∀ (rest acc : Str) (d : Int), 1 ≤ d →
    braceScanGo (renderElems es ++ rest) acc d =
      braceScanGo rest (revOnto (renderElems es) acc) d
  | Jlist.nil, _, rest, acc, d, _ => by simp [renderElems, revOnto]
  | Jlist.cons h Jlist.nil, hc, rest, acc, d, hd => by
    have h' : (cleanV h && cleanL Jlist.nil) = true := hc
    rw [show renderElems (Jlist.cons h Jlist.nil) = renderJ h from rfl]
    exact scanV h (bandL h') rest acc d hd
  | Jlist.cons h (Jlist.cons h2 t2), hc, rest, acc, d, hd => by
    have h' : (cleanV h && cleanL (Jlist.cons h2 t2)) = true := hc
    have hch : cleanV h = true := bandL h'
    have hct : cleanL (Jlist.cons h2 t2) = true := bandR h'
    rw [show renderElems (Jlist.cons h (Jlist.cons h2 t2)) ++ rest =
      renderJ h ++
        (',' :: (renderElems (Jlist.cons h2 t2) ++ rest)) by
        simp [renderElems, List.append_assoc]]
    rw [scanV h hch _ acc d hd]
    rw [braceScanGo_plain_cons ',' (by decide) (by decide)]
    rw [scanL (Jlist.cons h2 t2) hct rest _ d hd]
    congr 1
    simp [revOnto_eq, renderElems, List.append_assoc]

theorem scanF : ∀ (fs : Jfields), cleanF fs = true →
    ∀ (rest acc : Str) (d : Int), 1 ≤ d →
    braceScanGo (renderFields fs ++ rest) acc d =
      braceScanGo rest (revOnto (renderFields fs) acc) d
  | Jfields.nil, _, rest, acc, d, _ => by simp [renderFields, revOnto]
  | Jfields.fcons k v Jfields.nil, hc, rest, acc, d, hd => by
    have h' : ((noBraceBt k && cleanV v) && cleanF Jfields.nil) = true := hc
    have hck : noBraceBt k = true :=
      bandL (bandL h')
    have hcv : cleanV v = true :=
      bandR (bandL h')
    rw [show renderFields (Jfields.fcons k v Jfields.nil) ++ rest =
      renderString k ++ (':' :: (renderJ v ++ rest)) by
        simp [renderFields, List.append_assoc]]
    rw [braceScanGo_plain_append (renderString k)
      (renderString_plain k hck)]
    rw [braceScanGo_plain_cons ':' (by decide) (by decide)]
    rw [scanV v hcv rest _ d hd]
    congr 1
    simp [revOnto_eq, renderFields, List.append_assoc]
  | Jfields.fcons k v (Jfields.fcons k2 v2 t2), hc, rest, acc, d, hd => by
    have h' : ((noBraceBt k && cleanV v) &&
        cleanF (Jfields.fcons k2 v2 t2)) = true := hc
    have hck : noBraceBt k = true :=
      bandL (bandL h')
    have hcv : cleanV v = true :=
      bandR (bandL h')
    have hct : cleanF (Jfields.fcons k2 v2 t2) = true :=
      bandR h'
    rw [show renderFields (Jfields.fcons k v (Jfields.fcons k2 v2 t2)) ++
        rest =
      renderString k ++ (':' :: (renderJ v ++ (',' ::
        (renderFields (Jfields.fcons k2 v2 t2) ++ rest)))) by
        simp [renderFields, List.append_assoc]]
    rw [braceScanGo_plain_append (renderString k)
      (renderString_plain k hck)]
    rw [braceScanGo_plain_cons ':' (by decide) (by decide)]
    rw [scanV v hcv _ _ d hd]
    rw [braceScanGo_plain_cons ',' (by decide) (by decide)]
    rw [scanF (Jfields.fcons k2 v2 t2) hct rest _ d hd]
    congr 1
    simp [revOnto_eq, renderFields, List.append_assoc]

end

/-- The brace-depth scan started at the first character of a serialized
clean object recovers exactly that object, whatever follows it. -/
theorem braceScan_render_obj (fs : Jfields) (hc : cleanF fs = true)
    (suffix : Str) :
    braceScanGo (renderJ (Jval.obj fs) ++ suffix) [] 0 =
      some (Jval.obj fs) := by
  rw [show renderJ (Jval.obj fs) ++ suffix =
    lbraceC :: (renderFields fs ++ (rbraceC :: suffix)) by
      simp [renderJ, List.append_assoc]]
  rw [braceScanGo_lbrace]
  rw [scanF fs hc _ _ ((0 : Int) + 1) (by omega)]
  have hcand : (rbraceC :: revOnto (renderFields fs) [lbraceC]).reverse =
      renderJ (Jval.obj fs) := by
    simp [revOnto_eq, renderJ, List.append_assoc]
  rw [braceScanGo_rbrace_fire _ _ _ (by omega : (0 : Int) + 1 - 1 = 0)]
  rw [hcand, json_loads_render (Jval.obj fs)]

/-! ## Noise-transparent passes of the extractor -/

theorem okChar_split {c : Char} (h : okChar c = true) :
    (c == lbraceC) = false ∧ (c == rbraceC) = false ∧ (c == btC) = false := by
  simp only [okChar, Bool.and_eq_true, Bool.not_eq_true'] at h
  exact ⟨h.1.1, h.1.2, h.2⟩

theorem isDigitC_not_bt (c : Char) (h : isDigitC c = true) :
    (c == btC) = false := by
  have hn : 48 ≤ c.toNat ∧ c.toNat ≤ 57 := by
    simpa [isDigitC] using h
  have hne : c ≠ btC := by
    intro he
    have h96 : c.toNat = 96 := by rw [he]; rfl
    omega
  simpa using hne

theorem renderInt_nobt (n : Int) : ∀ c ∈ renderInt n, (c == btC) = false := by
  intro c hc
  have hdig : isDigitC c = true ∨ c = '-' := by
    cases n with
    | ofNat m =>
      exact Or.inl (renderNat_digits m c (by simpa [renderInt] using hc))
    | negSucc m =>
      simp only [renderInt, List.mem_cons] at hc
      rcases hc with hc | hc
      · exact Or.inr hc
      · exact Or.inl (renderNat_digits (m + 1) c hc)
  rcases hdig with h | h
  · exact isDigitC_not_bt c h
  · subst h; rfl

theorem escapeChars_nobt (s : Str) (hs : noBraceBt s = true) :
    ∀ c ∈ escapeChars s, (c == btC) = false := by
  induction s with
  | nil => intro c hc; simp [escapeChars] at hc
  | cons a t ih =>
    have ha : okChar a = true := List.all_eq_true.mp hs a (by simp)
    have ht : noBraceBt t = true := by
      apply List.all_eq_true.mpr
      intro x hx
      exact List.all_eq_true.mp hs x (by simp [hx])
    have ha' : (a == btC) = false := (okChar_split ha).2.2
    intro c hc
    unfold escapeChars at hc
    by_cases hq : a == '"'
    · simp only [hq, if_true, List.mem_cons] at hc
      rcases hc with hc | hc | hc
      · subst hc; rfl
      · subst hc; rfl
      · exact ih ht c hc
    · by_cases hb : a == '\\'
      · simp only [hq, hb, Bool.false_eq_true, if_false, if_true,
          List.mem_cons] at hc
        rcases hc with hc | hc | hc
        · subst hc; rfl
        · subst hc; rfl
        · exact ih ht c hc
      · simp only [hq, hb, Bool.false_eq_true, if_false,
          List.mem_cons] at hc
        rcases hc with hc | hc
        · subst hc; exact ha'
        · exact ih ht c hc

theorem renderString_nobt (s : Str) (hs : noBraceBt s = true) :
    ∀ c ∈ renderString s, (c == btC) = false := by
  intro c hc
  rw [renderString] at hc
  rcases List.mem_cons.mp hc with h | h
  · subst h; rfl
  · rcases List.mem_append.mp h with h2 | h2
    · exact escapeChars_nobt s hs c h2
    · have h3 : c = '"' := by simpa using h2
      subst h3; rfl

mutual

theorem renderJ_nobt : ∀ (J : Jval), cleanV J = true →
    ∀ c ∈ renderJ J, (c == btC) = false
  | Jval.null, _, c, hc => by
    have hc' : c ∈ ['n', 'u', 'l', 'l'] := by simpa [renderJ, strOf] using hc
    fin_cases hc' <;> rfl
  | Jval.jbool true, _, c, hc => by
    have hc' : c ∈ ['t', 'r', 'u', 'e'] := by simpa [renderJ, strOf] using hc
    fin_cases hc' <;> rfl
  | Jval.jbool false, _, c, hc => by
    have hc' : c ∈ ['f', 'a', 'l', 's', 'e'] := by
      simpa [renderJ, strOf] using hc
    fin_cases hc' <;> rfl
  | Jval.num n, _, c, hc =>
    renderInt_nobt n c (by simpa [renderJ] using hc)
  | Jval.str s, hcl, c, hc =>
    renderString_nobt s hcl c (by simpa [renderJ] using hc)
  | Jval.arr es, hcl, c, hc => by
    have hc' : c = '[' ∨ c ∈ renderElems es ∨ c = ']' := by
      simpa [renderJ, List.mem_append, List.mem_cons] using hc
    rcases hc' with h | h | h
    · subst h; rfl
    · exact renderElems_nobt es hcl c h
    · subst h; rfl
  | Jval.obj fs, hcl, c, hc => by
    have hc' : c = lbraceC ∨ c ∈ renderFields fs ∨ c = rbraceC := by
      simpa [renderJ, List.mem_append, List.mem_cons] using hc
    rcases hc' with h | h | h
    · subst h; rfl
    · exact renderFields_nobt fs hcl c h
    · subst h; rfl

theorem renderElems_nobt : ∀ (es : Jlist), cleanL es = true →
    ∀ c ∈ renderElems es, (c == btC) = false
  | Jlist.nil, _, c, hc => by simp [renderElems] at hc
  | Jlist.cons h Jlist.nil, hcl, c, hc => by
    have h' : (cleanV h && cleanL Jlist.nil) = true := hcl
    exact renderJ_nobt h (bandL h') c (by simpa [renderElems] using hc)
  | Jlist.cons h (Jlist.cons h2 t2), hcl, c, hc => by
    have h' : (cleanV h && cleanL (Jlist.cons h2 t2)) = true := hcl
    have hc' : c ∈ renderJ h ∨ c = ',' ∨
        c ∈ renderElems (Jlist.cons h2 t2) := by
      simpa [renderElems, List.mem_append, List.mem_cons] using hc
    rcases hc' with h1 | h1 | h1
    · exact renderJ_nobt h (bandL h') c h1
    · subst h1; rfl
    · exact renderElems_nobt (Jlist.cons h2 t2) (bandR h') c h1

theorem renderFields_nobt : ∀ (fs : Jfields), cleanF fs = true →
    ∀ c ∈ renderFields fs, (c == btC) = false
  | Jfields.nil, _, c, hc => by simp [renderFields] at hc
  | Jfields.fcons k v Jfields.nil, hcl, c, hc => by
    have h' : ((noBraceBt k && cleanV v) && cleanF Jfields.nil) = true := hcl
    have hc' : c ∈ renderString k ∨ c = ':' ∨ c ∈ renderJ v := by
      simpa [renderFields, List.mem_append, List.mem_cons] using hc
    rcases hc' with h1 | h1 | h1
    · exact renderString_nobt k (bandL (bandL h')) c h1
    · subst h1; rfl
    · exact renderJ_nobt v (bandR (bandL h')) c h1
  | Jfields.fcons k v (Jfields.fcons k2 v2 t2), hcl, c, hc => by
    have h' : ((noBraceBt k && cleanV v) &&
        cleanF (Jfields.fcons k2 v2 t2)) = true := hcl
    have hc' : c ∈ renderString k ∨ c = ':' ∨ c ∈ renderJ v ∨ c = ',' ∨
        c ∈ renderFields (Jfields.fcons k2 v2 t2) := by
      simpa [renderFields, List.mem_append, List.mem_cons] using hc
    rcases hc' with h1 | h1 | h1 | h1 | h1
    · exact renderString_nobt k (bandL (bandL h')) c h1
    · subst h1; rfl
    · exact renderJ_nobt v (bandR (bandL h')) c h1
    · subst h1; rfl
    · exact renderFields_nobt (Jfields.fcons k2 v2 t2) (bandR h') c h1

end

theorem fenceStripGo_step (fuel : Nat) (c : Char) (rest : Str)
    (h : isPre [btC, btC, btC] (c :: rest) = false) :
    fenceStripGo (fuel + 1) (c :: rest) = c :: fenceStripGo fuel rest := by
  simp [fenceStripGo, h]

theorem fenceStripGo_nobt (l : Str) (hl : ∀ c ∈ l, (c == btC) = false) :
    ∀ (fuel : Nat) (suf : Str),
      fenceStripGo (l.length + fuel) (l ++ suf) = l ++ fenceStripGo fuel suf := by
  induction l with
  | nil => intro fuel suf; simp
  | cons a t ih =>
    intro fuel suf
    have ha : (a == btC) = false := hl a (by simp)
    have hna : (btC == a) = false := by
      have hne : a ≠ btC := by simpa using ha
      simpa using (Ne.symm hne)
    have hpre : isPre [btC, btC, btC] (a :: (t ++ suf)) = false := by
      simp [isPre, hna]
    have hlen : (a :: t).length + fuel = (t.length + fuel) + 1 := by
      simp [List.length_cons]; omega
    rw [hlen, show (a :: t) ++ suf = a :: (t ++ suf) from rfl,
      fenceStripGo_step _ _ _ hpre,
      ih (fun c hc => hl c (by simp [hc])) fuel suf]
    rfl

theorem fenceStrip_decomp (l suf : Str)
    (hl : ∀ c ∈ l, (c == btC) = false) :
    fenceStrip (l ++ suf) = l ++ fenceStripGo (suf.length + 1) suf := by
  unfold fenceStrip
  rw [show (l ++ suf).length + 1 = l.length + (suf.length + 1) by
    simp [List.length_append]; omega]
  exact fenceStripGo_nobt l hl (suf.length + 1) suf

theorem dropWhile_append_of_neg (p : Char → Bool) (l : Str) (x : Char)
    (r : Str) (hx : p x = false) :
    (l ++ x :: r).dropWhile p = l.dropWhile p ++ x :: r := by
  induction l with
  | nil => simp [List.dropWhile, hx]
  | cons a t ih =>
    cases hpa : p a
    · simp [List.dropWhile, hpa]
    · simp [List.dropWhile, hpa, ih]

theorem dropWhile_all_neg (p : Char → Bool) (l : Str)
    (hl : ∀ c ∈ l, p c = true) : l.dropWhile p = [] := by
  induction l with
  | nil => rfl
  | cons a t ih =>
    have ha : p a = true := hl a (by simp)
    simp [List.dropWhile, ha, ih (fun c hc => hl c (by simp [hc]))]

theorem mem_of_mem_dropWhile (p : Char → Bool) (l : Str) (c : Char)
    (h : c ∈ l.dropWhile p) : c ∈ l := by
  induction l with
  | nil => simp [List.dropWhile] at h
  | cons a t ih =>
    cases hpa : p a
    · rw [List.dropWhile, hpa] at h
      simpa using h
    · rw [List.dropWhile, hpa] at h
      exact List.mem_cons_of_mem a (ih h)

theorem dropWhile_nolb (pre : Str)
    (hp : ∀ c ∈ pre, (c == lbraceC) = false) (r : Str) :
    (pre ++ lbraceC :: r).dropWhile (fun c => !(c == lbraceC)) =
      lbraceC :: r := by
  rw [dropWhile_append_of_neg _ pre lbraceC r (by simp)]
  rw [dropWhile_all_neg _ pre (fun c hc => by simp [hp c hc])]
  rfl

theorem stripPy_keeps_obj (pre inner suf : Str) :
    stripPy (pre ++ (lbraceC :: inner ++ [rbraceC]) ++ suf) =
      pre.dropWhile isPyWs ++ (lbraceC :: inner ++ [rbraceC]) ++
        (suf.reverse.dropWhile isPyWs).reverse := by
  unfold stripPy
  rw [show pre ++ (lbraceC :: inner ++ [rbraceC]) ++ suf =
    pre ++ lbraceC :: (inner ++ rbraceC :: suf) by simp]
  rw [dropWhile_append_of_neg isPyWs pre lbraceC _ (by rfl)]
  rw [show pre.dropWhile isPyWs ++ lbraceC :: (inner ++ rbraceC :: suf) =
    (pre.dropWhile isPyWs ++ lbraceC :: inner) ++ rbraceC :: suf by simp]
  rw [List.reverse_append]
  rw [show (rbraceC :: suf).reverse = suf.reverse ++ [rbraceC] by simp]
  rw [show suf.reverse ++ [rbraceC] ++
      (pre.dropWhile isPyWs ++ lbraceC :: inner).reverse =
    suf.reverse ++ rbraceC ::
      (pre.dropWhile isPyWs ++ lbraceC :: inner).reverse by simp]
  rw [dropWhile_append_of_neg isPyWs _ rbraceC _ (by rfl)]
  simp

/-! ## Claim C5 -/

/-- C5 (amended): for every JSON object of the modelled fragment whose
strings contain no braces and no backticks, and every prefix noise free
of braces and backticks, the extractor of
`app/llm_generator.py::_extract_json_from_text` applied to
prefix ++ serialized(J) ++ suffix returns exactly J, for an arbitrary
suffix. -/
theorem c5_extractor_recovers_clean_object (fs : Jfields) (pre suf : Str)
    (hc : cleanF fs = true) (hp : pre.all okChar = true) :
    extract_json_from_text (pre ++ renderJ (Jval.obj fs) ++ suf) =
      some (Jval.obj fs) := by
  have hobj : renderJ (Jval.obj fs) =
      lbraceC :: renderFields fs ++ [rbraceC] := rfl
  have hne : pre ++ renderJ (Jval.obj fs) ++ suf ≠ [] := by
    rw [hobj]; simp
  unfold extract_json_from_text
  rw [if_neg hne]
  have hlbt : ∀ c ∈ pre ++ renderJ (Jval.obj fs), (c == btC) = false := by
    intro c hcm
    rcases List.mem_append.mp hcm with h | h
    · exact (okChar_split (List.all_eq_true.mp hp c h)).2.2
    · exact renderJ_nobt (Jval.obj fs) hc c h
  rw [show pre ++ renderJ (Jval.obj fs) ++ suf =
    (pre ++ renderJ (Jval.obj fs)) ++ suf by simp]
  rw [fenceStrip_decomp _ suf hlbt]
  rw [show (pre ++ renderJ (Jval.obj fs)) ++
      fenceStripGo (suf.length + 1) suf =
    pre ++ (lbraceC :: renderFields fs ++ [rbraceC]) ++
      fenceStripGo (suf.length + 1) suf by rw [hobj]]
  rw [stripPy_keeps_obj pre (renderFields fs) _]
  generalize ((fenceStripGo (suf.length + 1)
    suf).reverse.dropWhile isPyWs).reverse = T
  have hp2 : ∀ c ∈ pre.dropWhile isPyWs, (c == lbraceC) = false := by
    intro c hcm
    exact (okChar_split (List.all_eq_true.mp hp c
      (mem_of_mem_dropWhile isPyWs pre c hcm))).1
  simp only []
  rw [show pre.dropWhile isPyWs ++
      (lbraceC :: renderFields fs ++ [rbraceC]) ++ T =
    pre.dropWhile isPyWs ++
      lbraceC :: (renderFields fs ++ [rbraceC] ++ T) by simp]
  rw [dropWhile_nolb _ hp2 _]
  simp only []
  rw [show lbraceC :: (renderFields fs ++ [rbraceC] ++ T) =
    renderJ (Jval.obj fs) ++ T by rw [hobj]; simp]
  rw [braceScan_render_obj fs hc T]

/-- C5 counterexample: the claim allows an arbitrary noise prefix, but a
stray opening brace in the prefix derails the depth scan of
`_extract_json_from_text`, and both fallbacks also fail: on the text
"see { " ++ serialized({"a":1}) the extractor returns None, not
the embedded object. -/
theorem c5_counterexample_stray_brace_prefix :
    extract_json_from_text
        (strOf "see \x7b " ++
          renderJ (Jval.obj (Jfields.fcons (strOf "a") (Jval.num 1)
            Jfields.nil))) = none ∧
      (none : Option Jval) ≠
        some (Jval.obj (Jfields.fcons (strOf "a") (Jval.num 1)
          Jfields.nil)) :=
  ⟨rfl, by simp⟩

/-- Witness for C5: a concrete clean object surrounded by clean prefix
noise and arbitrary suffix noise is recovered by the extractor. -/
theorem c5_extractor_recovers_clean_object_witness :
    cleanF (Jfields.fcons (strOf "a") (Jval.num 1) Jfields.nil) = true ∧
    (strOf "Here is your manifest: ").all okChar = true ∧
    extract_json_from_text
        (strOf "Here is your manifest: " ++
          renderJ (Jval.obj (Jfields.fcons (strOf "a") (Jval.num 1)
            Jfields.nil)) ++ strOf " enjoy") =
      some (Jval.obj (Jfields.fcons (strOf "a") (Jval.num 1)
        Jfields.nil)) :=
  ⟨by rfl, by rfl,
    c5_extractor_recovers_clean_object _ _ _ (by rfl) (by rfl)⟩

end Tds
